import Mathlib

/-!
Verification of the core of a CommonMark tokenizer (event log, `EditMap`
batched mutation, the attention resolver in `construct/attention.rs`, the
label-end construct and media resolver in `construct/label_end.rs`, and the
byte-slice utilities in `util/slice.rs`).  The Rust sources are embedded
shallowly: machine integers become `Nat`/`Int`, vectors become `List`, and
fallible indexing becomes `getD`/`[·]?` guarded by the well-formedness
hypotheses the Rust code assumes.
-/

namespace Markdown

/-- Construct names (the `Name`/`Token` enumeration of the event model). -/
inductive Name where
  | data
  | attentionSequence
  | emphasis
  | emphasisSequence
  | emphasisText
  | strong
  | strongSequence
  | strongText
  | label
  | labelLink
  | labelImage
  | labelImageMarker
  | labelEnd
  | labelMarker
  | labelText
  | link
  | image
  | reference
  | referenceMarker
  | referenceString
  | resource
  | resourceMarker
  | resourceDestination
  | lineEnding
  | spaceOrTab
  deriving DecidableEq, Repr, Inhabited

/-- Event kind: `Enter` or `Exit`. -/
inductive Kind where
  | enter
  | exit
  deriving DecidableEq, Repr, Inhabited

/-- A point into the source: line, column, byte index and virtual spaces. -/
structure Point where
  line : Nat
  column : Nat
  index : Nat
  vs : Nat
  deriving DecidableEq, Repr, Inhabited

/-- An event of the flat event log.  The optional `previous`/`next` event
indices are the `link` field threading multi-line content. -/
structure Event where
  kind : Kind
  name : Name
  point : Point
  previous : Option Nat
  next : Option Nat
  deriving DecidableEq, Repr, Inhabited

/-- One recorded edit of an `EditMap`: `(at, remove, inserts)`. -/
abbrev Edit := Nat × Nat × List Event

/-- `util/edit_map.rs`: batched event-log mutation.  The `consumed` flag only
feeds the `assert!`s of the Rust code, which are not modelled. -/
structure EditMap where
  consumed : Bool
  map : List Edit
  deriving Repr

/-- `EditMap::new`. -/
def EditMap.new : EditMap :=
  { consumed := false, map := [] }

/-- The scan of `add_impl` over the recorded edits: merge into the first edit
recorded at the same index (summing removes; prepending the new inserts when
`before` is true, appending otherwise), else push a new edit at the end. -/
def addInMap (at_ remove : Nat) (add : List Event) (before : Bool) :
    List Edit → List Edit
  | [] => [(at_, remove, add)]
  | e :: rest =>
    if e.1 = at_ then
      (at_, e.2.1 + remove, if before then add ++ e.2.2 else e.2.2 ++ add) :: rest
    else
      e :: addInMap at_ remove add before rest

/-- `add_impl` from `util/edit_map.rs`. -/
def add_impl (em : EditMap) (at_ remove : Nat) (add : List Event) (before : Bool) :
    EditMap :=
  { em with map := addInMap at_ remove add before em.map }

/-- `EditMap::add`. -/
def EditMap.add (em : EditMap) (at_ remove : Nat) (add : List Event) : EditMap :=
  add_impl em at_ remove add false

/-- `EditMap::add_before`. -/
def EditMap.add_before (em : EditMap) (at_ remove : Nat) (add : List Event) : EditMap :=
  add_impl em at_ remove add true

/-- The `map` closure of `shift_links`: walk the jump table in order and keep
the shift of the last entry whose position is not past `before`. -/
def jumpsLookup : List (Nat × Int) → Int → Nat → Int
  | [], jump, _ => jump
  | j :: rest, jump, before => if j.1 > before then jump else jumpsLookup rest j.2 before

/-- Shift one original event index through the jump table
(`before + jump`, asserted non-negative in the Rust code). -/
def shiftIndex (jumps : List (Nat × Int)) (before : Nat) : Nat :=
  ((before : Int) + jumpsLookup jumps 0 before).toNat

/-- Rewrite the `previous`/`next` links of one event through the jump table. -/
def shiftEvent (jumps : List (Nat × Int)) (e : Event) : Event :=
  { e with
    previous := e.previous.map (shiftIndex jumps)
    next := e.next.map (shiftIndex jumps) }

/-- `shift_links` from `util/edit_map.rs`. -/
def shift_links (events : List Event) (jumps : List (Nat × Int)) : List Event :=
  events.map (shiftEvent jumps)

/-- The jump-table construction inside `EditMap::consume`: running sum of
`len(inserts) - remove` over the sorted edits. -/
def buildJumps : List Edit → Int → List (Nat × Int)
  | [], _ => []
  | e :: rest, shift =>
    let next := shift + (e.2.2.length : Int) - (e.2.1 : Int)
    (e.1, next) :: buildJumps rest next

/-- The main loop of `EditMap::consume`: for each edit copy the unchanged
slice (with links shifted), append the inserts, and skip `remove` events;
finally copy the shifted tail. -/
def consumeGo (events : List Event) (jumps : List (Nat × Int)) :
    List Edit → Nat → List Event
  | [], start => shift_links (events.drop start) jumps
  | e :: rest, start =>
    shift_links ((events.take e.1).drop start) jumps ++ e.2.2 ++
      consumeGo events jumps rest (e.1 + e.2.1)

/-- Insert one edit into a list sorted by edit position. -/
def insertEdit (e : Edit) : List Edit → List Edit
  | [] => [e]
  | f :: rest => if e.1 ≤ f.1 then e :: f :: rest else f :: insertEdit e rest

/-- The `sort_unstable_by` on edit positions inside `EditMap::consume`
(insertion sort; the maps the code builds have pairwise distinct positions, so
every comparison sort produces this list). -/
def sortEdits : List Edit → List Edit
  | [] => []
  | e :: rest => insertEdit e (sortEdits rest)

/-- `EditMap::consume`: sort the edits by index, build the jump table, and
rebuild the event vector. -/
def EditMap.consume (em : EditMap) (events : List Event) : List Event :=
  let sorted := sortEdits em.map
  consumeGo events (buildJumps sorted 0) sorted 0

/-- One call of `EditMap::add` or `EditMap::add_before`, as data
(for order-independence statements about `consume`). -/
structure Call where
  at_ : Nat
  remove : Nat
  inserts : List Event
  before : Bool
  deriving DecidableEq, Repr

/-- Record a list of `add`/`add_before` calls into a fresh `EditMap`. -/
def applyCalls (calls : List Call) : EditMap :=
  calls.foldl (fun em c => add_impl em c.at_ c.remove c.inserts c.before) EditMap.new

/-- `util/slice.rs` `Slice`: bytes plus virtual-space counts on both ends. -/
structure Slice where
  bytes : List Nat
  before : Nat
  after : Nat
  deriving DecidableEq, Repr

/-- `Slice::from_position`, parameterized by `TAB_SIZE`
(`util/constant.rs`, which is outside the provided sources). -/
def Slice.from_position (tabSize : Nat) (bytes : List Nat) (startP endP : Point) :
    Slice :=
  let p := if startP.vs > 0 then (tabSize - startP.vs, startP.index + 1)
           else (startP.vs, startP.index)
  let q := if endP.vs > 0 then (endP.vs - 1, endP.index + 1)
           else (endP.vs, endP.index)
  { bytes := (bytes.take q.2).drop p.2, before := p.1, after := q.1 }

/-- `Slice::len`: byte count plus both virtual-space counts. -/
def Slice.len (s : Slice) : Nat :=
  s.bytes.length + s.before + s.after

/-- `Slice::serialize`, with the UTF-8 decoding (`str::from_utf8`, Rust
stdlib) as a parameter: `before` spaces, then the decoded bytes.  The
`debug_assert` that `after = 0` becomes a hypothesis of the theorems. -/
def Slice.serialize (decode : List Nat → List Char) (s : Slice) : List Char :=
  List.replicate s.before ' ' ++ decode s.bytes

/-- A label start on the tokenizer's `label_start_stack`
(`start0`/`start1` are the enter/exit event indices). -/
structure LabelStart where
  start0 : Nat
  start1 : Nat
  balanced : Bool
  inactive : Bool
  deriving DecidableEq, Repr, Inhabited

/-- The backward scan of `start` in `construct/label_end.rs`: the topmost
label start that is not balanced. -/
def findLabelStartGo (stack : List LabelStart) : Nat → Option Nat
  | 0 => none
  | i + 1 =>
    if (stack.getD i default).balanced then findLabelStartGo stack i else some i

/-- The full backward scan of `start`, from the top of the stack. -/
def labelStartSearch (stack : List LabelStart) : Option Nat :=
  findLabelStartGo stack stack.length

/-- `nok` in `construct/label_end.rs` marks the scanned label start
balanced. -/
def markBalanced (stack : List LabelStart) (i : Nat) : List LabelStart :=
  stack.modify (fun ls => { ls with balanced := true }) i

/-- Result of the opening checks of `start` in `construct/label_end.rs`:
either `State::Nok` (with the possibly updated stack) or proceeding with the
index of the matched label start. -/
inductive LabelStartCheck where
  | nok (stack : List LabelStart)
  | proceed (idx : Nat)
  deriving DecidableEq, Repr

/-- The opening checks of `start` in `construct/label_end.rs`: fail without an
opening; mark balanced and fail when the nearest non-balanced opening is
inactive; otherwise proceed with it. -/
def labelEndStartCheck (stack : List LabelStart) : LabelStartCheck :=
  match labelStartSearch stack with
  | none => .nok stack
  | some i =>
    if (stack.getD i default).inactive then .nok (markBalanced stack i)
    else .proceed i

/-- Outcome of the label-end branching after `]`. -/
inductive AfterResult where
  | ok
  | nok
  deriving DecidableEq, Repr

/-- The branching of `after` and `reference_not_full` in
`construct/label_end.rs`.  The attempts of the `resource`, `full_reference`
and `collapsed_reference` sub-constructs are abstracted as the oracle Booleans
handed to their `attempt` continuations, and `defined` is
`parse_state.definitions.contains(&info.media.id)`. -/
def label_end_after (code : Option Char)
    (defined resource_ok full_reference_ok collapsed_reference_ok : Bool) :
    AfterResult :=
  if code = some '(' then
    if resource_ok || defined then .ok else .nok
  else if code = some '[' then
    if full_reference_ok then .ok
    else if defined then (if collapsed_reference_ok then .ok else .nok)
    else .nok
  else
    if defined then .ok else .nok

/-- The same branching as the specification words it (claim C3): when the full
reference fails with the identifier defined and the collapsed reference also
fails, the label end is still accepted as a shortcut reference if the
identifier is defined. -/
def label_end_after_spec (code : Option Char)
    (defined resource_ok full_reference_ok collapsed_reference_ok : Bool) :
    AfterResult :=
  if code = some '(' then
    if resource_ok || defined then .ok else .nok
  else if code = some '[' then
    if full_reference_ok then .ok
    else if defined then
      (if collapsed_reference_ok then .ok else (if defined then .ok else .nok))
    else .nok
  else
    if defined then .ok else .nok

/-- The stack sweep of `ok` in `construct/label_end.rs`: the matched label
start and everything above it were split off to the loose list, so the stack
keeps its first `label_start_index` entries; when the matched start is a
`LabelLink`, every remaining `LabelLink` entry is marked inactive. -/
def ok_stack_update (events : List Event) (stack : List LabelStart)
    (label_start_index media_start_0 : Nat) : List LabelStart :=
  let remaining := stack.take label_start_index
  if (events.getD media_start_0 default).name = Name.labelLink then
    remaining.map fun ls =>
      if (events.getD ls.start0 default).name = Name.labelLink then
        { ls with inactive := true }
      else ls
  else remaining

/-- A committed `Media`: enter/exit event indices of the label start and of
the whole construct, plus the normalized identifier. -/
structure Media where
  start0 : Nat
  start1 : Nat
  end0 : Nat
  end1 : Nat
  id : List Char
  deriving DecidableEq, Repr, Inhabited

/-- The loose-label-start pass of `resolve_media`: replace the events of an
unmatched label start with a single `Data` span. -/
def removeLooseEdit (events : List Event) (m : EditMap) (ls : LabelStart) :
    EditMap :=
  m.add ls.start0 (ls.start1 - ls.start0 + 1)
    [ { kind := Kind.enter, name := Name.data,
        point := (events.getD ls.start0 default).point,
        previous := none, next := none },
      { kind := Kind.exit, name := Name.data,
        point := (events.getD ls.start1 default).point,
        previous := none, next := none } ]

/-- The grouping edits of `resolve_media` for one committed `Media`. -/
def mediaEdits (events : List Event) (m : EditMap) (media : Media) : EditMap :=
  let group_enter_index := media.start0
  let group_enter_event := events.getD group_enter_index default
  let text_enter_index :=
    media.start0 + (if group_enter_event.name = Name.labelLink then 4 else 6)
  let text_exit_index := media.end0
  let label_exit_index := media.end0 + 3
  let group_end_index := media.end1
  let m1 := m.add group_enter_index 0
    [ { kind := Kind.enter,
        name := if group_enter_event.name = Name.labelLink then Name.link
                else Name.image,
        point := group_enter_event.point, previous := none, next := none },
      { kind := Kind.enter, name := Name.label,
        point := group_enter_event.point, previous := none, next := none } ]
  let m2 :=
    if text_enter_index ≠ text_exit_index then
      (m1.add text_enter_index 0
        [ { kind := Kind.enter, name := Name.labelText,
            point := (events.getD text_enter_index default).point,
            previous := none, next := none } ]).add text_exit_index 0
        [ { kind := Kind.exit, name := Name.labelText,
            point := (events.getD text_exit_index default).point,
            previous := none, next := none } ]
    else m1
  let m3 := m2.add (label_exit_index + 1) 0
    [ { kind := Kind.exit, name := Name.label,
        point := (events.getD label_exit_index default).point,
        previous := none, next := none } ]
  m3.add (group_end_index + 1) 0
    [ { kind := Kind.exit, name := Name.link,
        point := (events.getD group_end_index default).point,
        previous := none, next := none } ]

/-- `resolve_media` from `construct/label_end.rs`. -/
def resolve_media (events : List Event)
    (label_start_list_loose label_start_stack : List LabelStart)
    (media_list : List Media) : List Event :=
  let left := label_start_list_loose ++ label_start_stack
  let m1 := left.foldl (removeLooseEdit events) EditMap.new
  let m2 := media_list.foldl (mediaEdits events) m1
  m2.consume events

/-- Character classes of `classify_character` in `construct/attention.rs`. -/
inductive GroupKind where
  | whitespace
  | punctuation
  | other
  deriving DecidableEq, Repr, Fintype

/-- `classify_character`, parameterized by the Unicode whitespace test
(`char::is_whitespace`, Rust stdlib) and the `PUNCTUATION` table
(`src/unicode.rs`, outside the provided sources): `None` (the buffer edge) is
whitespace, then whitespace, then punctuation, else other. -/
def classify_character (isWhite isPunct : Char → Bool) :
    Option Char → GroupKind
  | none => GroupKind.whitespace
  | some c =>
    if isWhite c then GroupKind.whitespace
    else if isPunct c then GroupKind.punctuation
    else GroupKind.other

/-- The `open`/`close` computation of the classify pass of `resolve` in
`construct/attention.rs`, from the marker byte and the classes of the
neighbouring characters (`42` is `*`). -/
def attnOpenClose (marker : Nat) (before after : GroupKind) : Bool × Bool :=
  let open0 : Bool :=
    after == GroupKind.other ||
      (after == GroupKind.punctuation && before != GroupKind.other)
  let close0 : Bool :=
    before == GroupKind.other ||
      (before == GroupKind.punctuation && after != GroupKind.other)
  ( if marker = 42 then open0
    else open0 && (before != GroupKind.other || !close0),
    if marker = 42 then close0
    else close0 && (after != GroupKind.other || !open0) )

/-- An attention sequence gathered by the classify pass of `resolve`. -/
structure Sequence where
  marker : Nat
  balance : Nat
  event_index : Nat
  start_point : Point
  end_point : Point
  size : Nat
  open_ : Bool
  close : Bool
  deriving DecidableEq, Repr, Inhabited

/-- Build one `Sequence` from an `AttentionSequence` enter/exit pair.
`charBefore`/`charAfter` abstract the UTF-8-lossy decoding of the four-byte
windows around the sequence (`String::from_utf8_lossy`, Rust stdlib), and the
marker is the head byte of the slice at the enter point. -/
def mkSequence (charBefore charAfter : List Nat → Nat → Option Char)
    (isWhite isPunct : Char → Bool) (bytes : List Nat)
    (event_index balance : Nat) (enterP exitP : Point) : Sequence :=
  let before := classify_character isWhite isPunct (charBefore bytes enterP.index)
  let after := classify_character isWhite isPunct (charAfter bytes exitP.index)
  let marker := bytes.getD enterP.index 0
  let oc := attnOpenClose marker before after
  { marker := marker, balance := balance, event_index := event_index,
    start_point := enterP, end_point := exitP,
    size := exitP.index - enterP.index, open_ := oc.1, close := oc.2 }

/-- The classify pass of `resolve` in `construct/attention.rs`: walk the
events keeping the balance, and push a `Sequence` for every
`AttentionSequence` enter (whose exit is the next event). -/
def gatherGo (charBefore charAfter : List Nat → Nat → Option Char)
    (isWhite isPunct : Char → Bool) (bytes : List Nat) :
    List Event → Nat → Nat → List Sequence
  | [], _, _ => []
  | e :: rest, start, balance =>
    if e.kind = Kind.enter then
      if e.name = Name.attentionSequence then
        mkSequence charBefore charAfter isWhite isPunct bytes start (balance + 1)
            e.point (rest.getD 0 default).point ::
          gatherGo charBefore charAfter isWhite isPunct bytes rest (start + 1)
            (balance + 1)
      else
        gatherGo charBefore charAfter isWhite isPunct bytes rest (start + 1)
          (balance + 1)
    else
      gatherGo charBefore charAfter isWhite isPunct bytes rest (start + 1)
        (balance - 1)

/-- The classify pass over the whole event log. -/
def gatherSequences (charBefore charAfter : List Nat → Nat → Option Char)
    (isWhite isPunct : Char → Bool) (bytes : List Nat) (events : List Event) :
    List Sequence :=
  gatherGo charBefore charAfter isWhite isPunct bytes events 0 0

/-- The opener conditions of the pairing pass: can open, same marker, same
balance. -/
def matchCond (sequence_open sequence_close : Sequence) : Bool :=
  sequence_open.open_ && sequence_close.marker == sequence_open.marker &&
    sequence_close.balance == sequence_open.balance

/-- The Rule of Three of the pairing pass: skip the candidate opener when the
opening can close or the closing can open, the close size is not a multiple of
three, but the sum of both sizes is. -/
def ruleOfThreeSkip (sequence_open sequence_close : Sequence) : Bool :=
  (sequence_open.close || sequence_close.open_) &&
    sequence_close.size % 3 != 0 &&
    (sequence_open.size + sequence_close.size) % 3 == 0

/-- The backward scan for an opener in the pairing pass of `resolve`,
examining indices `o - 1, o - 2, ..., 0`. -/
def findOpenGo (sequences : List Sequence) (closeIdx : Nat) :
    Nat → Option Nat
  | 0 => none
  | o + 1 =>
    let sequence_open := sequences.getD o default
    let sequence_close := sequences.getD closeIdx default
    if matchCond sequence_open sequence_close then
      if ruleOfThreeSkip sequence_open sequence_close then
        findOpenGo sequences closeIdx o
      else some o
    else findOpenGo sequences closeIdx o

/-- The full backward scan for an opener, starting just below the closer. -/
def findOpen (sequences : List Sequence) (closeIdx : Nat) : Option Nat :=
  findOpenGo sequences closeIdx closeIdx

/-- Mark every sequence strictly between opener and closer as no longer able
to open (the nesting enforcement of the pairing pass). -/
def markBetweenGo (lo hi : Nat) : List Sequence → Nat → List Sequence
  | [], _ => []
  | s :: rest, i =>
    (if lo < i ∧ i < hi then { s with open_ := false } else s) ::
      markBetweenGo lo hi rest (i + 1)

/-- Nesting enforcement over a whole sequence list. -/
def markBetween (lo hi : Nat) (sequences : List Sequence) : List Sequence :=
  markBetweenGo lo hi sequences 0

/-- Overwrite the point of the event at `i` (the in-place residual-sequence
shifts of the pairing pass). -/
def setPoint (events : List Event) (i : Nat) (p : Point) : List Event :=
  events.modify (fun e => { e with point := p }) i

/-- Overwrite the name of the event at `i` (the cleanup pass). -/
def setName (events : List Event) (i : Nat) (n : Name) : List Event :=
  events.modify (fun e => { e with name := n }) i

/-- The four opening events emitted on a match (inserted with `add_before`
just after the opener's events). -/
def openingEvents (take : Nat) (seq_open_enter seq_open_exit : Point) :
    List Event :=
  [ { kind := Kind.enter,
      name := if take = 1 then Name.emphasis else Name.strong,
      point := seq_open_enter, previous := none, next := none },
    { kind := Kind.enter,
      name := if take = 1 then Name.emphasisSequence else Name.strongSequence,
      point := seq_open_enter, previous := none, next := none },
    { kind := Kind.exit,
      name := if take = 1 then Name.emphasisSequence else Name.strongSequence,
      point := seq_open_exit, previous := none, next := none },
    { kind := Kind.enter,
      name := if take = 1 then Name.emphasisText else Name.strongText,
      point := seq_open_exit, previous := none, next := none } ]

/-- The four closing events emitted on a match (inserted with `add` at the
closer's enter index). -/
def closingEvents (take : Nat) (seq_close_enter seq_close_exit : Point) :
    List Event :=
  [ { kind := Kind.exit,
      name := if take = 1 then Name.emphasisText else Name.strongText,
      point := seq_close_enter, previous := none, next := none },
    { kind := Kind.enter,
      name := if take = 1 then Name.emphasisSequence else Name.strongSequence,
      point := seq_close_enter, previous := none, next := none },
    { kind := Kind.exit,
      name := if take = 1 then Name.emphasisSequence else Name.strongSequence,
      point := seq_close_exit, previous := none, next := none },
    { kind := Kind.exit,
      name := if take = 1 then Name.emphasis else Name.strong,
      point := seq_close_exit, previous := none, next := none } ]

/-- The mutable state of the pairing pass: the sequence list, the event log
(whose points are shifted in place) and the tokenizer's `EditMap`. -/
structure AttState where
  sequences : List Sequence
  events : List Event
  map : EditMap

/-- The body of a successful match in the pairing pass of `resolve`: take one
or two markers from each side, exclude misnesting, shrink or remove both
sequences, and emit the opening and closing event groups through the map.
Returns the new state and the next closer index. -/
def applyMatch (st : AttState) (openIdx closeIdx : Nat) : AttState × Nat :=
  let sequence_close := st.sequences.getD closeIdx default
  let sequence_open := st.sequences.getD openIdx default
  let take := if sequence_open.size > 1 && sequence_close.size > 1 then 2 else 1
  let seqs1 := markBetween openIdx closeIdx st.sequences
  let seq_close_enter := sequence_close.start_point
  let seq_close_exit : Point :=
    { sequence_close.start_point with
      column := sequence_close.start_point.column + take,
      index := sequence_close.start_point.index + take }
  let close1 : Sequence :=
    { sequence_close with
      size := sequence_close.size - take,
      start_point := seq_close_exit }
  let step1 : List Sequence × List Event × EditMap :=
    if close1.size = 0 then
      (seqs1.eraseIdx closeIdx, st.events,
        st.map.add sequence_close.event_index 2 [])
    else
      (seqs1.set closeIdx close1,
        setPoint st.events sequence_close.event_index seq_close_exit, st.map)
  let seq_open_exit := sequence_open.end_point
  let seq_open_enter : Point :=
    { sequence_open.end_point with
      column := sequence_open.end_point.column - take,
      index := sequence_open.end_point.index - take }
  let open1 : Sequence :=
    { sequence_open with
      size := sequence_open.size - take,
      end_point := seq_open_enter }
  let step2 : List Sequence × List Event × EditMap × Bool :=
    if open1.size = 0 then
      (step1.1.eraseIdx openIdx, step1.2.1,
        step1.2.2.add sequence_open.event_index 2 [], true)
    else
      (step1.1.set openIdx open1,
        setPoint step1.2.1 (sequence_open.event_index + 1) seq_open_enter,
        step1.2.2, false)
  let map3 := step2.2.2.1.add_before (sequence_open.event_index + 2) 0
    (openingEvents take seq_open_enter seq_open_exit)
  let map4 := map3.add sequence_close.event_index 0
    (closingEvents take seq_close_enter seq_close_exit)
  (⟨step2.1, step2.2.1, map4⟩, if step2.2.2.2 then closeIdx - 1 else closeIdx)

/-- One iteration of the outer pairing loop at closer index `closeIdx`. -/
def pairStep (st : AttState) (closeIdx : Nat) : AttState × Nat :=
  let sequence_close := st.sequences.getD closeIdx default
  if sequence_close.close then
    match findOpen st.sequences closeIdx with
    | some openIdx => applyMatch st openIdx closeIdx
    | none => (st, closeIdx + 1)
  else (st, closeIdx + 1)

/-- The outer pairing loop, with explicit fuel (every Rust iteration either
advances the closer index or removes at least one marker, so the fuel chosen
in `attention_resolve` bounds the number of iterations). -/
def pairLoop : Nat → AttState → Nat → AttState
  | 0, st, _ => st
  | fuel + 1, st, closeIdx =>
    if closeIdx < st.sequences.length then
      let next := pairStep st closeIdx
      pairLoop fuel next.1 next.2
    else st

/-- The cleanup pass of `resolve`: remaining sequences become `Data`. -/
def markAsData (events : List Event) (sequences : List Sequence) : List Event :=
  sequences.foldl
    (fun evs s => setName (setName evs s.event_index Name.data)
      (s.event_index + 1) Name.data)
    events

/-- Total number of markers still available in a sequence list. -/
def sumSizes (sequences : List Sequence) : Nat :=
  (sequences.map Sequence.size).sum

/-- `resolve` from `construct/attention.rs`: classify, pair, clean up, and
consume the edit map. -/
def attention_resolve (charBefore charAfter : List Nat → Nat → Option Char)
    (isWhite isPunct : Char → Bool) (bytes : List Nat) (events : List Event) :
    List Event :=
  let sequences := gatherSequences charBefore charAfter isWhite isPunct bytes events
  let fuel := (sumSizes sequences + 1) * (sequences.length + 2)
  let st := pairLoop fuel ⟨sequences, events, EditMap.new⟩ 0
  st.map.consume (markAsData st.events st.sequences)

/-- Well-formedness of the event log with respect to attention: every
`AttentionSequence` event is half of an adjacent enter/exit pair. -/
def attnWf (events : List Event) : Prop :=
  ∀ i : Nat, i < events.length →
    (events.getD i default).name = Name.attentionSequence →
      ((events.getD i default).kind = Kind.enter →
        i + 1 < events.length ∧
        (events.getD (i + 1) default).name = Name.attentionSequence ∧
        (events.getD (i + 1) default).kind = Kind.exit) ∧
      ((events.getD i default).kind = Kind.exit →
        1 ≤ i ∧
        (events.getD (i - 1) default).name = Name.attentionSequence ∧
        (events.getD (i - 1) default).kind = Kind.enter)

instance attnWfDecidable (events : List Event) : Decidable (attnWf events) := by
  unfold attnWf
  exact Nat.decidableBallLT _ _

/-- The conditions under which the backward scan of the pairing pass accepts a
candidate opener at index `k` for the closer at index `closeIdx`: flagged
open, same marker, same balance, and not excluded by the Rule of Three. -/
def goodOpener (sequences : List Sequence) (closeIdx k : Nat) : Prop :=
  (sequences.getD k default).open_ = true ∧
  (sequences.getD closeIdx default).marker = (sequences.getD k default).marker ∧
  (sequences.getD closeIdx default).balance = (sequences.getD k default).balance ∧
  ¬(((sequences.getD k default).close = true ∨
      (sequences.getD closeIdx default).open_ = true) ∧
    (sequences.getD closeIdx default).size % 3 ≠ 0 ∧
    ((sequences.getD k default).size + (sequences.getD closeIdx default).size) % 3 = 0)

/-- A point at byte index `i` (column `i + 1` on line 1), for fixtures. -/
def mkPt (i : Nat) : Point :=
  { line := 1, column := i + 1, index := i, vs := 0 }

/-- Fixture event: a `Data` enter. -/
def evA : Event :=
  { kind := Kind.enter, name := Name.data, point := mkPt 0,
    previous := none, next := none }

/-- Fixture event: a `Data` exit. -/
def evB : Event :=
  { kind := Kind.exit, name := Name.data, point := mkPt 1,
    previous := none, next := none }

/-- Fixture: the event log the tokenizer produces for `![a](b)` (an image:
label start image, data, label end, inline resource). -/
def imgEvents : List Event :=
  [ { kind := Kind.enter, name := Name.labelImage, point := mkPt 0, previous := none, next := none },
    { kind := Kind.enter, name := Name.labelImageMarker, point := mkPt 0, previous := none, next := none },
    { kind := Kind.exit, name := Name.labelImageMarker, point := mkPt 1, previous := none, next := none },
    { kind := Kind.enter, name := Name.labelMarker, point := mkPt 1, previous := none, next := none },
    { kind := Kind.exit, name := Name.labelMarker, point := mkPt 2, previous := none, next := none },
    { kind := Kind.exit, name := Name.labelImage, point := mkPt 2, previous := none, next := none },
    { kind := Kind.enter, name := Name.data, point := mkPt 2, previous := none, next := none },
    { kind := Kind.exit, name := Name.data, point := mkPt 3, previous := none, next := none },
    { kind := Kind.enter, name := Name.labelEnd, point := mkPt 3, previous := none, next := none },
    { kind := Kind.enter, name := Name.labelMarker, point := mkPt 3, previous := none, next := none },
    { kind := Kind.exit, name := Name.labelMarker, point := mkPt 4, previous := none, next := none },
    { kind := Kind.exit, name := Name.labelEnd, point := mkPt 4, previous := none, next := none },
    { kind := Kind.enter, name := Name.resource, point := mkPt 4, previous := none, next := none },
    { kind := Kind.enter, name := Name.resourceMarker, point := mkPt 4, previous := none, next := none },
    { kind := Kind.exit, name := Name.resourceMarker, point := mkPt 5, previous := none, next := none },
    { kind := Kind.enter, name := Name.resourceDestination, point := mkPt 5, previous := none, next := none },
    { kind := Kind.exit, name := Name.resourceDestination, point := mkPt 6, previous := none, next := none },
    { kind := Kind.enter, name := Name.resourceMarker, point := mkPt 6, previous := none, next := none },
    { kind := Kind.exit, name := Name.resourceMarker, point := mkPt 7, previous := none, next := none },
    { kind := Kind.exit, name := Name.resource, point := mkPt 7, previous := none, next := none } ]

/-- Fixture: the committed `Media` for `![a](b)` over `imgEvents` (label
start events 0–5, label end events 8–11, construct end at event 19). -/
def imgMedia : Media :=
  { start0 := 0, start1 := 5, end0 := 8, end1 := 19, id := ['a'] }

/-- Fixture neighbour decoder that always reports the buffer edge. -/
def cb0 : List Nat → Nat → Option Char := fun _ _ => none

/-- Fixture neighbour decoder that always reports the buffer edge. -/
def ca0 : List Nat → Nat → Option Char := fun _ _ => none

/-- Fixture whitespace test. -/
def ws0 : Char → Bool := fun _ => false

/-- Fixture punctuation test. -/
def pu0 : Char → Bool := fun _ => false

/-- Fixture: the bytes of `*a*`. -/
def attnBytes : List Nat := [42, 97, 42]

/-- Fixture: the event log the tokenizer produces for `*a*` (two attention
sequences around a data run). -/
def attnEvents : List Event :=
  [ { kind := Kind.enter, name := Name.attentionSequence, point := mkPt 0, previous := none, next := none },
    { kind := Kind.exit, name := Name.attentionSequence, point := mkPt 1, previous := none, next := none },
    { kind := Kind.enter, name := Name.data, point := mkPt 1, previous := none, next := none },
    { kind := Kind.exit, name := Name.data, point := mkPt 2, previous := none, next := none },
    { kind := Kind.enter, name := Name.attentionSequence, point := mkPt 2, previous := none, next := none },
    { kind := Kind.exit, name := Name.attentionSequence, point := mkPt 3, previous := none, next := none } ]

/-- Fixture: the first sequence the classify pass gathers from
`attnEvents` with the fixture classification parameters. -/
def seq0 : Sequence :=
  { marker := 42, balance := 1, event_index := 0, start_point := mkPt 0,
    end_point := mkPt 1, size := 1, open_ := false, close := false }

/-- Fixture edit map with edits recorded at indices 5 and 9. -/
def em0 : EditMap :=
  { consumed := false, map := [(5, 1, [evA]), (9, 0, [])] }

/-- Fixture: a one-event log whose event 0 is a `LabelLink` enter. -/
def evLink : List Event :=
  [ { kind := Kind.enter, name := Name.labelLink, point := mkPt 0,
      previous := none, next := none } ]

/-- Fixture label-start stack: one non-balanced, inactive entry. -/
def stack0 : List LabelStart :=
  [ { start0 := 0, start1 := 5, balanced := false, inactive := true } ]

/-- Fixture label-start stack: one non-balanced, active `LabelLink` entry. -/
def stack1 : List LabelStart :=
  [ { start0 := 0, start1 := 3, balanced := false, inactive := false } ]

/-- The cumulative shift of a list of edits, as the specification words it:
the sum of `len(inserts) - remove` over the edits. -/
def editShift : List Edit → Int
  | [] => 0
  | e :: rest => ((e.2.2.length : Int) - (e.2.1 : Int)) + editShift rest

/-- The kind and name of an event (the part of the log the pairing pass never
changes: it only moves points). -/
def eventShape (e : Event) : Kind × Name := (e.kind, e.name)

/-- Index `i` holds an `AttentionSequence` event. -/
def attnAt (events : List Event) (i : Nat) : Prop :=
  i < events.length ∧ (events.getD i default).name = Name.attentionSequence

/-- Index `i` holds an `AttentionSequence` enter event. -/
def attnEnterAt (events : List Event) (i : Nat) : Prop :=
  attnAt events i ∧ (events.getD i default).kind = Kind.enter

/-- The removal range of an edit covers original index `i`. -/
def covers (ed : Edit) (i : Nat) : Prop :=
  ed.1 ≤ i ∧ i < ed.1 + ed.2.1

/-- The invariant the pairing pass maintains, stated against the original
event log `orig`: shapes are untouched; every `AttentionSequence` index is
either half of a pair still tracked by a sequence or inside a recorded
removal; tracked sequences sit on `AttentionSequence` enters; recorded edits
insert no `AttentionSequence` events, remove `0` or exactly the `2` events of
a pair, and sit on pair enters or just after a pair; removals are only
recorded for pairs no longer tracked; and edit positions and tracked pair
positions are pairwise distinct. -/
def InvState (orig : List Event) (st : AttState) : Prop :=
  st.events.map eventShape = orig.map eventShape ∧
  (∀ i, attnAt orig i →
    (∃ s ∈ st.sequences, i = s.event_index ∨ i = s.event_index + 1) ∨
    (∃ ed ∈ st.map.map, covers ed i)) ∧
  (∀ s ∈ st.sequences, attnEnterAt orig s.event_index) ∧
  (∀ ed ∈ st.map.map,
    (∀ e ∈ ed.2.2, e.name ≠ Name.attentionSequence) ∧
    (ed.2.1 = 0 ∨ ed.2.1 = 2) ∧
    (ed.2.1 = 2 → attnEnterAt orig ed.1) ∧
    (attnEnterAt orig ed.1 ∨ ∃ j, ed.1 = j + 2 ∧ attnEnterAt orig j)) ∧
  (∀ ed ∈ st.map.map, ed.2.1 ≠ 0 →
    ∀ s ∈ st.sequences, s.event_index ≠ ed.1) ∧
  List.Pairwise (fun a b : Edit => a.1 ≠ b.1) st.map.map ∧
  List.Pairwise (fun a b : Sequence => a.event_index ≠ b.event_index) st.sequences

/-! Theorems. -/

theorem getLast?_take_drop (l : List Nat) (m n : Nat) (h1 : m ≤ n)
    (h2 : n < l.length) :
    ((l.take (n + 1)).drop m).getLast? = some (l.getD n 0) := by
  have hlen : ((l.take (n + 1)).drop m).length = n + 1 - m := by
    simp only [List.length_drop, List.length_take]
    omega
  rw [List.getLast?_eq_getElem?, hlen]
  have h3 : n + 1 - m - 1 = n - m := by omega
  rw [h3, List.getElem?_drop, List.getElem?_take]
  have h4 : m + (n - m) = n := by omega
  rw [h4, if_pos (by omega : n < n + 1), List.getElem?_eq_getElem h2,
    List.getD_eq_getElem l 0 h2]

/-- C10: for every position whose start point has virtual spaces, the slice's
bytes begin at `start.index + 1` and `before = TAB_SIZE - start.vs`; when the
end point also has virtual spaces the byte at `end.index` is included (it is
the last byte of the slice) and `after = end.vs - 1`, and otherwise the bytes
stop before `end.index` and `after = 0`; `len` is the byte count plus both
virtual-space counts; and `serialize` (requiring `after = 0`) is `before`
spaces followed by the decoded bytes. -/
theorem claim_C10 (tabSize : Nat) (bytes : List Nat) (s e : Point)
    (hs : s.vs > 0) :
    (Slice.from_position tabSize bytes s e).before = tabSize - s.vs ∧
    (e.vs = 0 →
      (Slice.from_position tabSize bytes s e).bytes =
        (bytes.take e.index).drop (s.index + 1) ∧
      (Slice.from_position tabSize bytes s e).after = 0) ∧
    (e.vs > 0 →
      (Slice.from_position tabSize bytes s e).bytes =
        (bytes.take (e.index + 1)).drop (s.index + 1) ∧
      (Slice.from_position tabSize bytes s e).after = e.vs - 1 ∧
      (s.index + 1 ≤ e.index → e.index < bytes.length →
        (Slice.from_position tabSize bytes s e).bytes.getLast? =
          some (bytes.getD e.index 0))) ∧
    (Slice.from_position tabSize bytes s e).len =
      (Slice.from_position tabSize bytes s e).bytes.length +
        (Slice.from_position tabSize bytes s e).before +
        (Slice.from_position tabSize bytes s e).after ∧
    ∀ decode : List Nat → List Char,
      (Slice.from_position tabSize bytes s e).after = 0 →
      (Slice.from_position tabSize bytes s e).serialize decode =
        List.replicate (tabSize - s.vs) ' ' ++
          decode (Slice.from_position tabSize bytes s e).bytes := by
  have hbefore : (Slice.from_position tabSize bytes s e).before = tabSize - s.vs := by
    by_cases he : e.vs > 0 <;> simp [Slice.from_position, hs, he]
  refine ⟨hbefore, ?_, ?_, rfl, ?_⟩
  · intro he0
    have he : ¬ e.vs > 0 := by omega
    refine ⟨?_, ?_⟩
    · simp [Slice.from_position, hs, he]
    · simp [Slice.from_position, hs, he, he0]
  · intro he
    have hbytes : (Slice.from_position tabSize bytes s e).bytes =
        (bytes.take (e.index + 1)).drop (s.index + 1) := by
      simp [Slice.from_position, hs, he]
    refine ⟨hbytes, by simp [Slice.from_position, hs, he], ?_⟩
    intro hle hlt
    rw [hbytes]
    exact getLast?_take_drop bytes (s.index + 1) e.index hle hlt
  · intro decode _
    simp [Slice.serialize, hbefore]

/-- Witness for C10 at a concrete position starting inside a tab
expansion. -/
theorem claim_C10_witness :
    ((⟨1, 1, 0, 2⟩ : Point)).vs > 0 ∧
    (Slice.from_position 4 [10, 20, 30, 40] ⟨1, 1, 0, 2⟩ ⟨1, 4, 2, 1⟩).before = 4 - 2 :=
  ⟨by decide,
    (claim_C10 4 [10, 20, 30, 40] ⟨1, 1, 0, 2⟩ ⟨1, 4, 2, 1⟩ (by decide)).1⟩

theorem addInMap_found :
    ∀ (m : List Edit) (k at_ r : Nat) (ins : List Event) (before : Bool)
      (r0 : Nat) (ins0 : List Event),
      m[k]? = some (at_, r0, ins0) →
      (∀ j, j < k → ∀ ed : Edit, m[j]? = some ed → ed.1 ≠ at_) →
      addInMap at_ r ins before m =
        m.set k (at_, r0 + r, if before then ins ++ ins0 else ins0 ++ ins) := by
  intro m
  induction m with
  | nil =>
    intro k at_ r ins before r0 ins0 hk _
    simp at hk
  | cons e rest ih =>
    intro k at_ r ins before r0 ins0 hk hj
    cases k with
    | zero =>
      simp only [List.getElem?_cons_zero, Option.some.injEq] at hk
      subst hk
      simp [addInMap]
    | succ k' =>
      have he : e.1 ≠ at_ := hj 0 (Nat.succ_pos _) e (by simp)
      have hk' : rest[k']? = some (at_, r0, ins0) := by simpa using hk
      have hj' : ∀ j, j < k' → ∀ ed : Edit, rest[j]? = some ed → ed.1 ≠ at_ := by
        intro j hjk ed hed
        exact hj (j + 1) (Nat.succ_lt_succ hjk) ed (by simpa using hed)
      rw [addInMap, if_neg he, List.set_cons_succ]
      exact congrArg (e :: ·) (ih k' at_ r ins before r0 ins0 hk' hj')

/-- C7: `EditMap.add` at an index that already has a recorded edit merges in
place (removes summed, new inserts appended after the existing ones), and
`EditMap.add_before` merges the same way but prepends the new inserts; neither
creates a second entry for that index. -/
theorem claim_C7 (em : EditMap) (k at_ r : Nat) (ins : List Event) (r0 : Nat)
    (ins0 : List Event) (hk : em.map[k]? = some (at_, r0, ins0))
    (hfirst : ∀ j, j < k → ∀ ed : Edit, em.map[j]? = some ed → ed.1 ≠ at_) :
    (em.add at_ r ins).map = em.map.set k (at_, r0 + r, ins0 ++ ins) ∧
    (em.add_before at_ r ins).map = em.map.set k (at_, r0 + r, ins ++ ins0) ∧
    (em.add at_ r ins).map.length = em.map.length ∧
    (em.add_before at_ r ins).map.length = em.map.length := by
  have h1 := addInMap_found em.map k at_ r ins false r0 ins0 hk hfirst
  have h2 := addInMap_found em.map k at_ r ins true r0 ins0 hk hfirst
  simp only [Bool.false_eq_true, if_false, if_true] at h1 h2
  refine ⟨h1, h2, ?_, ?_⟩
  · show (addInMap at_ r ins false em.map).length = em.map.length
    rw [h1, List.length_set]
  · show (addInMap at_ r ins true em.map).length = em.map.length
    rw [h2, List.length_set]

/-- Witness for C7 on the fixture map `em0`, merging at index 5. -/
theorem claim_C7_witness :
    (em0.add 5 2 [evB]).map = em0.map.set 0 (5, 1 + 2, [evA] ++ [evB]) ∧
    (em0.add_before 5 2 [evB]).map = em0.map.set 0 (5, 1 + 2, [evB] ++ [evA]) :=
  ⟨(claim_C7 em0 0 5 2 [evB] 1 [evA] (by decide)
      (fun j hj => absurd hj (Nat.not_lt_zero j))).1,
   (claim_C7 em0 0 5 2 [evB] 1 [evA] (by decide)
      (fun j hj => absurd hj (Nat.not_lt_zero j))).2.1⟩

/-- Counterexample to C3: after `]` at `[` with the identifier defined, a
failed full reference followed by a failed collapsed reference makes the code
fail (`nok`), while the claimed branching accepts a shortcut reference. -/
theorem claim_C3_counterexample :
    label_end_after (some '[') true false false false = AfterResult.nok ∧
    label_end_after_spec (some '[') true false false false = AfterResult.ok := by
  constructor <;> decide

/-- C3 (amended): after `]`, at `(` the label end succeeds iff the resource
attempt succeeds or the identifier is defined; at `[` it succeeds iff the full
reference succeeds, or the identifier is defined and the collapsed reference
succeeds (a failed collapsed reference fails the label end even when the
identifier is defined); otherwise it succeeds iff the identifier is
defined. -/
theorem claim_C3 (code : Option Char)
    (defined resource_ok full_reference_ok collapsed_reference_ok : Bool) :
    label_end_after code defined resource_ok full_reference_ok
        collapsed_reference_ok = AfterResult.ok ↔
      ((code = some '(' ∧ (resource_ok = true ∨ defined = true)) ∨
       (code ≠ some '(' ∧ code = some '[' ∧
         (full_reference_ok = true ∨
           (defined = true ∧ collapsed_reference_ok = true))) ∨
       (code ≠ some '(' ∧ code ≠ some '[' ∧ defined = true)) := by
  by_cases h1 : code = some '('
  · subst h1
    simp only [label_end_after, if_pos rfl]
    cases resource_ok <;> cases defined <;> simp
  · by_cases h2 : code = some '['
    · subst h2
      have hne : (some '[' : Option Char) ≠ some '(' := by decide
      simp only [label_end_after, if_neg hne, if_pos rfl]
      cases full_reference_ok <;> cases defined <;>
        cases collapsed_reference_ok <;> simp [hne]
    · simp only [label_end_after, if_neg h1, if_neg h2]
      cases defined <;> simp [h1, h2]

/-- C4: (a) when a label end commits with a `LabelLink` start, every
`LabelLink` entry remaining on the label-start stack after the sweep is
inactive; (b) a later label end whose nearest non-balanced label start is
inactive marks that start balanced and fails. -/
theorem claim_C4 :
    (∀ (events : List Event) (stack : List LabelStart) (i ms0 : Nat),
      (events.getD ms0 default).name = Name.labelLink →
      ∀ ls ∈ ok_stack_update events stack i ms0,
        (events.getD ls.start0 default).name = Name.labelLink →
        ls.inactive = true) ∧
    (∀ (stack : List LabelStart) (i : Nat),
      labelStartSearch stack = some i →
      (stack.getD i default).inactive = true →
      labelEndStartCheck stack = LabelStartCheck.nok (markBalanced stack i) ∧
      ((markBalanced stack i).getD i default).balanced = true) := by
  constructor
  · intro events stack i ms0 hlink ls hls hname
    unfold ok_stack_update at hls
    rw [if_pos hlink] at hls
    obtain ⟨ls0, _, hf⟩ := List.mem_map.1 hls
    by_cases hc : (events.getD ls0.start0 default).name = Name.labelLink
    · rw [if_pos hc] at hf
      rw [← hf]
    · rw [if_neg hc] at hf
      subst hf
      exact absurd hname hc
  · intro stack i hsearch hinact
    have hlt : i < stack.length := by
      have : ∀ n j, findLabelStartGo stack n = some j → j < n := by
        intro n
        induction n with
        | zero => intro j h; simp [findLabelStartGo] at h
        | succ n ih =>
          intro j h
          rw [findLabelStartGo] at h
          split at h
          · exact Nat.lt_succ_of_lt (ih j h)
          · cases h
            exact Nat.lt_succ_self _
      exact this stack.length i hsearch
    constructor
    · unfold labelEndStartCheck
      rw [hsearch]
      simp only [if_pos hinact]
    · unfold markBalanced
      rw [List.getD_eq_getElem?_getD]
      rw [List.getElem?_modify]
      rw [List.getElem?_eq_getElem hlt]
      simp

/-- Witness for C4: the sweep marks the fixture `LabelLink` entry inactive,
and a label end over the inactive fixture stack fails. -/
theorem claim_C4_witness :
    ((⟨0, 3, false, true⟩ : LabelStart).inactive = true) ∧
    labelEndStartCheck stack0 = LabelStartCheck.nok (markBalanced stack0 0) :=
  ⟨claim_C4.1 evLink stack1 1 0 (by decide) ⟨0, 3, false, true⟩ (by decide)
      (by decide),
   (claim_C4.2 stack0 0 (by decide) (by decide)).1⟩

theorem good_iff (sequences : List Sequence) (closeIdx o : Nat) :
    (matchCond (sequences.getD o default) (sequences.getD closeIdx default) = true ∧
     ruleOfThreeSkip (sequences.getD o default) (sequences.getD closeIdx default) = false) ↔
      goodOpener sequences closeIdx o := by
  simp only [matchCond, ruleOfThreeSkip, goodOpener, Bool.and_eq_true,
    beq_iff_eq, Bool.or_eq_true, bne_iff_ne, Bool.and_eq_false_iff,
    Bool.or_eq_false_iff, beq_eq_false_iff_ne, ne_eq, Bool.not_eq_true,
    bne_eq_false_iff_eq]
  cases h1 : (sequences.getD o default).open_ <;>
    cases h2 : (sequences.getD o default).close <;>
    cases h3 : (sequences.getD closeIdx default).open_ <;>
    simp <;> tauto

theorem findOpenGo_spec (sequences : List Sequence) (closeIdx : Nat) :
    ∀ n j, findOpenGo sequences closeIdx n = some j ↔
      (j < n ∧ goodOpener sequences closeIdx j ∧
        ∀ k, j < k → k < n → ¬ goodOpener sequences closeIdx k) := by
  intro n
  induction n with
  | zero =>
    intro j
    simp [findOpenGo]
  | succ o ih =>
    intro j
    rw [findOpenGo]
    by_cases hm : matchCond (sequences.getD o default)
        (sequences.getD closeIdx default) = true
    · by_cases hr : ruleOfThreeSkip (sequences.getD o default)
          (sequences.getD closeIdx default) = true
      · have hno : ¬ goodOpener sequences closeIdx o := by
          intro hg
          have := ((good_iff sequences closeIdx o).2 hg).2
          rw [hr] at this
          cases this
        rw [if_pos hm, if_pos hr, ih j]
        constructor
        · rintro ⟨hj, hg, hmax⟩
          refine ⟨Nat.lt_succ_of_lt hj, hg, ?_⟩
          intro k hk1 hk2
          rcases Nat.lt_succ_iff_lt_or_eq.1 hk2 with h | h
          · exact hmax k hk1 h
          · subst h
            exact hno
        · rintro ⟨hj, hg, hmax⟩
          have hjo : j ≠ o := by
            intro h
            subst h
            exact hno hg
          refine ⟨by omega, hg, ?_⟩
          intro k hk1 hk2
          exact hmax k hk1 (Nat.lt_succ_of_lt hk2)
      · have hgood : goodOpener sequences closeIdx o :=
          (good_iff sequences closeIdx o).1 ⟨hm, by simpa using hr⟩
        rw [if_pos hm, if_neg hr]
        simp only [Option.some.injEq]
        constructor
        · rintro rfl
          refine ⟨Nat.lt_succ_self o, hgood, ?_⟩
          intro k hk1 hk2
          omega
        · rintro ⟨hj, hg, hmax⟩
          by_contra hne
          have hjo : j < o := by
            rcases Nat.lt_succ_iff_lt_or_eq.1 hj with h | h
            · exact h
            · exact absurd h.symm (Ne.symm fun hh => hne hh.symm)
          exact hmax o hjo (Nat.lt_succ_self o) hgood
    · have hno : ¬ goodOpener sequences closeIdx o := by
        intro hg
        exact hm ((good_iff sequences closeIdx o).2 hg).1
      rw [if_neg hm, ih j]
      constructor
      · rintro ⟨hj, hg, hmax⟩
        refine ⟨Nat.lt_succ_of_lt hj, hg, ?_⟩
        intro k hk1 hk2
        rcases Nat.lt_succ_iff_lt_or_eq.1 hk2 with h | h
        · exact hmax k hk1 h
        · subst h
          exact hno
      · rintro ⟨hj, hg, hmax⟩
        have hjo : j ≠ o := by
          intro h
          subst h
          exact hno hg
        refine ⟨by omega, hg, ?_⟩
        intro k hk1 hk2
        exact hmax k hk1 (Nat.lt_succ_of_lt hk2)

/-- C1: the backward scan of the pairing pass returns `some j` exactly when
`j` is the nearest strictly earlier sequence that is flagged open, has the
same marker byte and balance, and is not excluded by the Rule of Three — a
candidate opener being excluded exactly when (it can also close or the closer
can also open) and `closer.size % 3 ≠ 0` and
`(opener.size + closer.size) % 3 = 0`. -/
theorem claim_C1 (sequences : List Sequence) (closeIdx j : Nat) :
    findOpen sequences closeIdx = some j ↔
      (j < closeIdx ∧ goodOpener sequences closeIdx j ∧
        ∀ k, j < k → k < closeIdx → ¬ goodOpener sequences closeIdx k) :=
  findOpenGo_spec sequences closeIdx closeIdx j

theorem gatherGo_mem (charBefore charAfter : List Nat → Nat → Option Char)
    (isWhite isPunct : Char → Bool) (bytes : List Nat) :
    ∀ (l : List Event) (start balance : Nat) (s : Sequence),
      s ∈ gatherGo charBefore charAfter isWhite isPunct bytes l start balance →
      ∃ i bal eP xP,
        s = mkSequence charBefore charAfter isWhite isPunct bytes i bal eP xP := by
  intro l
  induction l with
  | nil =>
    intro start balance s hs
    simp [gatherGo] at hs
  | cons e rest ih =>
    intro start balance s hs
    rw [gatherGo] at hs
    by_cases h1 : e.kind = Kind.enter
    · rw [if_pos h1] at hs
      by_cases h2 : e.name = Name.attentionSequence
      · rw [if_pos h2] at hs
        rcases List.mem_cons.1 hs with h | h
        · exact ⟨start, balance + 1, e.point, (rest.getD 0 default).point, h⟩
        · exact ih (start + 1) (balance + 1) s h
      · rw [if_neg h2] at hs
        exact ih (start + 1) (balance + 1) s hs
    · rw [if_neg h1] at hs
      exact ih (start + 1) (balance - 1) s hs

theorem attnOC_star (b a : GroupKind) :
    ((attnOpenClose 42 b a).1 = true ↔
      (a = GroupKind.other ∨ (a = GroupKind.punctuation ∧ b ≠ GroupKind.other))) ∧
    ((attnOpenClose 42 b a).2 = true ↔
      (b = GroupKind.other ∨ (b = GroupKind.punctuation ∧ a ≠ GroupKind.other))) := by
  cases b <;> cases a <;> exact ⟨by decide, by decide⟩

theorem attnOC_underscore (b a : GroupKind) :
    ((attnOpenClose 95 b a).1 = true ↔
      ((a = GroupKind.other ∨ (a = GroupKind.punctuation ∧ b ≠ GroupKind.other)) ∧
       (b ≠ GroupKind.other ∨
         ¬(b = GroupKind.other ∨ (b = GroupKind.punctuation ∧ a ≠ GroupKind.other))))) ∧
    ((attnOpenClose 95 b a).2 = true ↔
      ((b = GroupKind.other ∨ (b = GroupKind.punctuation ∧ a ≠ GroupKind.other)) ∧
       (a ≠ GroupKind.other ∨
         ¬(a = GroupKind.other ∨ (a = GroupKind.punctuation ∧ b ≠ GroupKind.other))))) := by
  cases b <;> cases a <;> exact ⟨by decide, by decide⟩

/-- C5: every sequence gathered by the classify pass has
`open = (after = Other) ∨ (after = Punctuation ∧ before ≠ Other)` and
`close = (before = Other) ∨ (before = Punctuation ∧ after ≠ Other)` from the
scalars adjacent to the sequence, a missing neighbour classifying as
whitespace; with marker `_` (byte 95), open additionally requires
`before ≠ Other ∨ ¬close` and close additionally requires
`after ≠ Other ∨ ¬open` (on the unadjusted open/close). -/
theorem claim_C5 (charBefore charAfter : List Nat → Nat → Option Char)
    (isWhite isPunct : Char → Bool) (bytes : List Nat) (events : List Event)
    (s : Sequence)
    (hs : s ∈ gatherSequences charBefore charAfter isWhite isPunct bytes events) :
    classify_character isWhite isPunct none = GroupKind.whitespace ∧
    (s.marker = 42 →
      (s.open_ = true ↔
        (classify_character isWhite isPunct (charAfter bytes s.end_point.index) =
            GroupKind.other ∨
         (classify_character isWhite isPunct (charAfter bytes s.end_point.index) =
            GroupKind.punctuation ∧
          classify_character isWhite isPunct (charBefore bytes s.start_point.index) ≠
            GroupKind.other))) ∧
      (s.close = true ↔
        (classify_character isWhite isPunct (charBefore bytes s.start_point.index) =
            GroupKind.other ∨
         (classify_character isWhite isPunct (charBefore bytes s.start_point.index) =
            GroupKind.punctuation ∧
          classify_character isWhite isPunct (charAfter bytes s.end_point.index) ≠
            GroupKind.other)))) ∧
    (s.marker = 95 →
      (s.open_ = true ↔
        ((classify_character isWhite isPunct (charAfter bytes s.end_point.index) =
            GroupKind.other ∨
          (classify_character isWhite isPunct (charAfter bytes s.end_point.index) =
            GroupKind.punctuation ∧
           classify_character isWhite isPunct (charBefore bytes s.start_point.index) ≠
            GroupKind.other)) ∧
         (classify_character isWhite isPunct (charBefore bytes s.start_point.index) ≠
            GroupKind.other ∨
          ¬(classify_character isWhite isPunct (charBefore bytes s.start_point.index) =
              GroupKind.other ∨
            (classify_character isWhite isPunct (charBefore bytes s.start_point.index) =
              GroupKind.punctuation ∧
             classify_character isWhite isPunct (charAfter bytes s.end_point.index) ≠
              GroupKind.other))))) ∧
      (s.close = true ↔
        ((classify_character isWhite isPunct (charBefore bytes s.start_point.index) =
            GroupKind.other ∨
          (classify_character isWhite isPunct (charBefore bytes s.start_point.index) =
            GroupKind.punctuation ∧
           classify_character isWhite isPunct (charAfter bytes s.end_point.index) ≠
            GroupKind.other)) ∧
         (classify_character isWhite isPunct (charAfter bytes s.end_point.index) ≠
            GroupKind.other ∨
          ¬(classify_character isWhite isPunct (charAfter bytes s.end_point.index) =
              GroupKind.other ∨
            (classify_character isWhite isPunct (charAfter bytes s.end_point.index) =
              GroupKind.punctuation ∧
             classify_character isWhite isPunct (charBefore bytes s.start_point.index) ≠
              GroupKind.other)))))) := by
  obtain ⟨i, bal, eP, xP, rfl⟩ :=
    gatherGo_mem charBefore charAfter isWhite isPunct bytes events 0 0 s hs
  refine ⟨rfl, ?_, ?_⟩
  · intro hm
    simp only [mkSequence] at hm ⊢
    rw [hm]
    exact attnOC_star _ _
  · intro hm
    simp only [mkSequence] at hm ⊢
    rw [hm]
    exact attnOC_underscore _ _

/-- Witness for C5: the first sequence gathered from the `*a*` fixture. -/
theorem claim_C5_witness :
    seq0 ∈ gatherSequences cb0 ca0 ws0 pu0 attnBytes attnEvents ∧
    classify_character ws0 pu0 none = GroupKind.whitespace :=
  ⟨by decide,
   (claim_C5 cb0 ca0 ws0 pu0 attnBytes attnEvents seq0 (by decide)).1⟩

/-- C2 is a code bug: for the `![a](b)` fixture (whose matched label start is
a `LabelImage`), `resolve_media` inserts the group exit with name `Link`, so
the output has an `Image` enter with no matching `Image` exit and a stray
`Link` exit with no `Link` enter, where the specification requires an `Image`
exit after the construct's end. -/
theorem claim_C2_code_bug :
    (imgEvents.getD 0 default).name = Name.labelImage ∧
    (resolve_media imgEvents [] [] [imgMedia]).countP
      (fun e => decide (e.kind = Kind.enter ∧ e.name = Name.image)) = 1 ∧
    (resolve_media imgEvents [] [] [imgMedia]).countP
      (fun e => decide (e.kind = Kind.exit ∧ e.name = Name.image)) = 0 ∧
    (resolve_media imgEvents [] [] [imgMedia]).countP
      (fun e => decide (e.kind = Kind.exit ∧ e.name = Name.link)) = 1 ∧
    (resolve_media imgEvents [] [] [imgMedia]).countP
      (fun e => decide (e.kind = Kind.enter ∧ e.name = Name.link)) = 0 := by
  decide

theorem insertEdit_perm (e : Edit) (l : List Edit) :
    (insertEdit e l).Perm (e :: l) := by
  induction l with
  | nil => simp [insertEdit]
  | cons f rest ih =>
    rw [insertEdit]
    split
    · exact List.Perm.refl _
    · exact (ih.cons f).trans (List.Perm.swap e f rest)

theorem sortEdits_perm (m : List Edit) : (sortEdits m).Perm m := by
  induction m with
  | nil => simp [sortEdits]
  | cons e rest ih =>
    exact (insertEdit_perm e (sortEdits rest)).trans (ih.cons e)

theorem insertEdit_sorted (e : Edit) (l : List Edit)
    (h : List.Pairwise (fun a b : Edit => a.1 ≤ b.1) l) :
    List.Pairwise (fun a b : Edit => a.1 ≤ b.1) (insertEdit e l) := by
  induction l with
  | nil => simp [insertEdit]
  | cons f rest ih =>
    rw [insertEdit]
    obtain ⟨hf, hrest⟩ := List.pairwise_cons.1 h
    split
    · refine List.pairwise_cons.2 ⟨?_, h⟩
      intro b hb
      rcases List.mem_cons.1 hb with hb | hb
      · subst hb
        omega
      · have := hf b hb
        omega
    · refine List.pairwise_cons.2 ⟨?_, ih hrest⟩
      intro b hb
      have := (insertEdit_perm e rest).mem_iff.1 hb
      rcases List.mem_cons.1 this with hb' | hb'
      · subst hb'
        omega
      · exact hf b hb'

theorem sortEdits_sorted (m : List Edit) :
    List.Pairwise (fun a b : Edit => a.1 ≤ b.1) (sortEdits m) := by
  induction m with
  | nil => simp [sortEdits]
  | cons e rest ih => exact insertEdit_sorted e (sortEdits rest) ih

theorem sortEdits_eq_of_perm (m m' : List Edit) (hperm : m.Perm m')
    (hnodup : List.Pairwise (fun a b : Edit => a.1 ≠ b.1) m) :
    sortEdits m = sortEdits m' := by
  have hnodup' : List.Pairwise (fun a b : Edit => a.1 ≠ b.1) m' :=
    (hperm.pairwise_iff (fun h => h.symm)).1 hnodup
  have p : (sortEdits m).Perm (sortEdits m') :=
    (sortEdits_perm m).trans (hperm.trans (sortEdits_perm m').symm)
  have s1 : List.Pairwise (fun a b : Edit => a.1 < b.1) (sortEdits m) := by
    refine ((sortEdits_sorted m).and ?_).imp (fun h => lt_of_le_of_ne h.1 h.2)
    exact (((sortEdits_perm m).pairwise_iff (fun h => h.symm)).2 hnodup)
  have s2 : List.Pairwise (fun a b : Edit => a.1 < b.1) (sortEdits m') := by
    refine ((sortEdits_sorted m').and ?_).imp (fun h => lt_of_le_of_ne h.1 h.2)
    exact (((sortEdits_perm m').pairwise_iff (fun h => h.symm)).2 hnodup')
  haveI : IsAntisymm Edit (fun a b : Edit => a.1 < b.1) :=
    ⟨fun a b h1 h2 => absurd (h1.trans h2) (lt_irrefl _)⟩
  exact List.eq_of_perm_of_sorted p s1 s2

theorem buildJumps_spec :
    ∀ (m : List Edit) (s : Int) (k : Nat), k < m.length →
      (buildJumps m s).getD k (0, 0) =
        ((m.getD k (0, 0, [])).1, s + editShift (m.take (k + 1))) := by
  intro m
  induction m with
  | nil =>
    intro s k hk
    simp at hk
  | cons e rest ih =>
    intro s k hk
    cases k with
    | zero =>
      simp [buildJumps, editShift]
      ring
    | succ k' =>
      have hk' : k' < rest.length := by simpa using hk
      have step := ih (s + (e.2.2.length : Int) - (e.2.1 : Int)) k' hk'
      rw [buildJumps]
      simp only [List.getD_cons_succ, List.take_succ_cons]
      rw [step]
      rw [editShift, Prod.mk.injEq]
      exact ⟨rfl, by ring⟩

theorem jumpsLookup_none (i : Nat) :
    ∀ (jumps : List (Nat × Int)) (init : Int),
      (∀ p ∈ jumps, i < p.1) → jumpsLookup jumps init i = init := by
  intro jumps
  induction jumps with
  | nil =>
    intro init _
    rfl
  | cons j rest ih =>
    intro init h
    rw [jumpsLookup, if_pos (h j (List.mem_cons_self _ _))]

theorem jumpsLookup_spec (i : Nat) :
    ∀ (jumps : List (Nat × Int)) (init : Int) (a : Nat) (v : Int),
      List.Pairwise (fun p q : Nat × Int => p.1 < q.1) jumps →
      (a, v) ∈ jumps → a ≤ i →
      (∀ p ∈ jumps, p.1 ≤ i → p.1 ≤ a) →
      jumpsLookup jumps init i = v := by
  intro jumps
  induction jumps with
  | nil =>
    intro init a v _ hmem
    simp at hmem
  | cons j rest ih =>
    intro init a v hpw hmem hle hmax
    obtain ⟨hhead, htail⟩ := List.pairwise_cons.1 hpw
    rcases List.mem_cons.1 hmem with h | h
    · obtain rfl : j = (a, v) := h.symm
      rw [jumpsLookup, if_neg (by omega : ¬ ((a, v).1 > i))]
      apply jumpsLookup_none
      intro p hp
      have h1 : a < p.1 := hhead p hp
      by_contra hno
      push_neg at hno
      have := hmax p (List.mem_cons_of_mem _ hp) hno
      omega
    · have hja : j.1 < a := hhead (a, v) h
      rw [jumpsLookup, if_neg (by omega : ¬ (j.1 > i))]
      exact ih j.2 a v htail h hle
        (fun p hp hpi => hmax p (List.mem_cons_of_mem _ hp) hpi)

theorem buildJumps_fst : ∀ (m : List Edit) (s : Int),
    (buildJumps m s).map Prod.fst = m.map Prod.fst := by
  intro m
  induction m with
  | nil =>
    intro s
    rfl
  | cons e rest ih =>
    intro s
    simp [buildJumps, ih]

theorem consumeGo_members (events : List Event) (jumps : List (Nat × Int)) :
    ∀ (edits : List Edit) (start : Nat) (ev : Event),
      ev ∈ consumeGo events jumps edits start →
      (∃ e ∈ events, ev = shiftEvent jumps e) ∨ (∃ ed ∈ edits, ev ∈ ed.2.2) := by
  intro edits
  induction edits with
  | nil =>
    intro start ev hev
    left
    rw [consumeGo] at hev
    obtain ⟨e, he, rfl⟩ := List.mem_map.1 hev
    exact ⟨e, List.drop_subset _ _ he, rfl⟩
  | cons ed rest ih =>
    intro start ev hev
    rw [consumeGo] at hev
    rcases List.mem_append.1 hev with h | h
    · rcases List.mem_append.1 h with h1 | h1
      · left
        obtain ⟨e, he, rfl⟩ := List.mem_map.1 h1
        exact ⟨e, List.take_subset _ _ (List.drop_subset _ _ he), rfl⟩
      · exact Or.inr ⟨ed, List.mem_cons_self _ _, h1⟩
    · rcases ih _ ev h with h1 | ⟨ed', hed', hev'⟩
      · exact Or.inl h1
      · exact Or.inr ⟨ed', List.mem_cons_of_mem _ hed', hev'⟩

/-- C8: the jump table pairs each sorted edit position with the running sum of
`len(inserts) - remove` up to and including it; a link index `i` is rewritten
to `i + shift_k` for the entry with the largest position `at_k ≤ i`, and is
unchanged when `i` precedes every edit position; and every event of the
`consume` output is either an edit's insert or an original event with both
link indices rewritten through this table. -/
theorem claim_C8 (em : EditMap) (events : List Event)
    (hnodup : List.Pairwise (fun a b : Edit => a.1 ≠ b.1) em.map) :
    (∀ k, k < (sortEdits em.map).length →
      (buildJumps (sortEdits em.map) 0).getD k (0, 0) =
        (((sortEdits em.map).getD k (0, 0, [])).1,
          editShift ((sortEdits em.map).take (k + 1)))) ∧
    (∀ i a v, (a, v) ∈ buildJumps (sortEdits em.map) 0 → a ≤ i →
      (∀ p ∈ buildJumps (sortEdits em.map) 0, p.1 ≤ i → p.1 ≤ a) →
      shiftIndex (buildJumps (sortEdits em.map) 0) i = ((i : Int) + v).toNat) ∧
    (∀ i, (∀ p ∈ buildJumps (sortEdits em.map) 0, i < p.1) →
      shiftIndex (buildJumps (sortEdits em.map) 0) i = i) ∧
    (∀ ev ∈ em.consume events,
      (∃ ed ∈ em.map, ev ∈ ed.2.2) ∨
      ∃ e ∈ events, ev =
        { e with
          previous := e.previous.map (shiftIndex (buildJumps (sortEdits em.map) 0))
          next := e.next.map (shiftIndex (buildJumps (sortEdits em.map) 0)) }) := by
  have hstrict : List.Pairwise (fun a b : Edit => a.1 < b.1) (sortEdits em.map) := by
    refine ((sortEdits_sorted em.map).and ?_).imp (fun h => lt_of_le_of_ne h.1 h.2)
    exact ((sortEdits_perm em.map).pairwise_iff (fun h => h.symm)).2 hnodup
  have hjstrict : List.Pairwise (fun p q : Nat × Int => p.1 < q.1)
      (buildJumps (sortEdits em.map) 0) := by
    rw [← List.pairwise_map (f := Prod.fst), buildJumps_fst,
      List.pairwise_map (f := Prod.fst)]
    exact hstrict
  refine ⟨fun k hk => by simpa using buildJumps_spec (sortEdits em.map) 0 k hk,
    ?_, ?_, ?_⟩
  · intro i a v hmem hle hmax
    unfold shiftIndex
    rw [jumpsLookup_spec i _ 0 a v hjstrict hmem hle hmax]
  · intro i h
    unfold shiftIndex
    rw [jumpsLookup_none i _ 0 h]
    simp
  · intro ev hev
    simp only [EditMap.consume] at hev
    rcases consumeGo_members events _ (sortEdits em.map) 0 ev hev with
      ⟨e, he, rfl⟩ | ⟨ed, hed, hin⟩
    · exact Or.inr ⟨e, he, rfl⟩
    · exact Or.inl ⟨ed, (sortEdits_perm em.map).subset hed, hin⟩

/-- Witness for C8 on the fixture map `em0` (edits at 5 and 9): index 3
precedes every edit, index 7 is shifted through the entry at 5. -/
theorem claim_C8_witness :
    shiftIndex (buildJumps (sortEdits em0.map) 0) 3 = 3 ∧
    shiftIndex (buildJumps (sortEdits em0.map) 0) 7 = ((7 : Int) + 0).toNat :=
  ⟨(claim_C8 em0 [] (by decide)).2.2.1 3 (by decide),
   (claim_C8 em0 [] (by decide)).2.1 7 5 0 (by decide) (by decide) (by decide)⟩

/-- Counterexample to C9: the same set of two `add` calls at the same index,
made in the two possible orders, consumes to different outputs (the merged
inserts concatenate in call order). -/
theorem claim_C9_counterexample :
    ((EditMap.new.add 0 0 [evA]).add 0 0 [evB]).consume [] ≠
      ((EditMap.new.add 0 0 [evB]).add 0 0 [evA]).consume [] := by
  decide

theorem addInMap_not_found :
    ∀ (m : List Edit) (at_ r : Nat) (ins : List Event) (before : Bool),
      (∀ ed ∈ m, ed.1 ≠ at_) →
      addInMap at_ r ins before m = m ++ [(at_, r, ins)] := by
  intro m
  induction m with
  | nil =>
    intro at_ r ins before _
    rfl
  | cons e rest ih =>
    intro at_ r ins before h
    rw [addInMap, if_neg (h e (List.mem_cons_self _ _)), List.cons_append]
    exact congrArg (e :: ·) (ih at_ r ins before
      (fun ed hed => h ed (List.mem_cons_of_mem _ hed)))

theorem applyCalls_go :
    ∀ (calls : List Call) (em : EditMap),
      List.Pairwise (fun a b : Call => a.at_ ≠ b.at_) calls →
      (∀ c ∈ calls, ∀ ed ∈ em.map, ed.1 ≠ c.at_) →
      (calls.foldl (fun em c => add_impl em c.at_ c.remove c.inserts c.before)
          em).map =
        em.map ++ calls.map (fun c => ((c.at_, c.remove, c.inserts) : Edit)) := by
  intro calls
  induction calls with
  | nil =>
    intro em _ _
    simp
  | cons c rest ih =>
    intro em hnodup hdisj
    obtain ⟨hc, hrest⟩ := List.pairwise_cons.1 hnodup
    rw [List.foldl_cons]
    have hstep : (add_impl em c.at_ c.remove c.inserts c.before).map =
        em.map ++ [((c.at_, c.remove, c.inserts) : Edit)] :=
      addInMap_not_found em.map c.at_ c.remove c.inserts c.before
        (fun ed hed => hdisj c (List.mem_cons_self _ _) ed hed)
    rw [ih (add_impl em c.at_ c.remove c.inserts c.before) hrest ?_]
    · rw [hstep]
      simp
    · intro c' hc' ed hed
      rw [hstep] at hed
      rcases List.mem_append.1 hed with h | h
      · exact hdisj c' (List.mem_cons_of_mem _ hc') ed h
      · simp at h
        rw [h]
        exact hc c' hc'

theorem applyCalls_map (calls : List Call)
    (hnodup : List.Pairwise (fun a b : Call => a.at_ ≠ b.at_) calls) :
    (applyCalls calls).map =
      calls.map (fun c => ((c.at_, c.remove, c.inserts) : Edit)) := by
  rw [applyCalls, applyCalls_go calls EditMap.new hnodup (by intro c _ ed hed; simp [EditMap.new] at hed)]
  rfl

/-- C9 (amended): the output of `consume` is independent of the order of the
recorded `add`/`add_before` calls whenever the calls target pairwise distinct
indices; for calls at the same index the order matters, because their inserts
concatenate in call order. -/
theorem claim_C9 (calls calls' : List Call) (hperm : calls.Perm calls')
    (hnodup : List.Pairwise (fun a b : Call => a.at_ ≠ b.at_) calls)
    (events : List Event) :
    (applyCalls calls).consume events = (applyCalls calls').consume events := by
  have hnodup' : List.Pairwise (fun a b : Call => a.at_ ≠ b.at_) calls' :=
    (hperm.pairwise_iff (fun h => h.symm)).1 hnodup
  have h1 : sortEdits (applyCalls calls).map = sortEdits (applyCalls calls').map := by
    rw [applyCalls_map calls hnodup, applyCalls_map calls' hnodup']
    apply sortEdits_eq_of_perm
    · exact hperm.map _
    · exact (List.pairwise_map).2 (hnodup.imp (fun h => h))
  simp only [EditMap.consume]
  rw [h1]

/-- Witness for C9: two calls at the distinct indices 0 and 3, in both
orders. -/
theorem claim_C9_witness :
    (applyCalls [⟨0, 0, [evA], false⟩, ⟨3, 0, [evB], true⟩]).consume [] =
      (applyCalls [⟨3, 0, [evB], true⟩, ⟨0, 0, [evA], false⟩]).consume [] :=
  claim_C9 [⟨0, 0, [evA], false⟩, ⟨3, 0, [evB], true⟩]
    [⟨3, 0, [evB], true⟩, ⟨0, 0, [evA], false⟩] (by decide) (by decide) []

/-! Supporting lemmas for C6. -/

theorem modify_length (f : Event → Event) (i : Nat) (l : List Event) :
    (l.modify f i).length = l.length :=
  List.length_modify f i l

theorem modify_getD (f : Event → Event) (i : Nat) (l : List Event) (j : Nat)
    (hj : j < l.length) :
    (l.modify f i).getD j default =
      (if i = j then f (l.getD j default) else l.getD j default) := by
  rw [List.getD_eq_getElem?_getD, List.getElem?_modify,
    List.getElem?_eq_getElem hj]
  simp [List.getD_eq_getElem?_getD, List.getElem?_eq_getElem hj]

theorem setPoint_shape (evs : List Event) (i : Nat) (p : Point) :
    (setPoint evs i p).map eventShape = evs.map eventShape := by
  apply List.ext_getElem?
  intro j
  simp only [List.getElem?_map, setPoint, List.getElem?_modify]
  cases evs[j]? with
  | none => rfl
  | some e =>
    simp only [Option.map_some]
    split <;> rfl

theorem setName_length (evs : List Event) (i : Nat) (n : Name) :
    (setName evs i n).length = evs.length :=
  List.length_modify _ i evs

theorem setName_name (evs : List Event) (i : Nat) (n : Name) (j : Nat)
    (hj : j < evs.length) :
    ((setName evs i n).getD j default).name =
      (if i = j then n else (evs.getD j default).name) := by
  rw [setName, modify_getD _ i evs j hj]
  split <;> rfl

theorem shape_length {evs evs' : List Event}
    (h : evs.map eventShape = evs'.map eventShape) :
    evs.length = evs'.length := by
  have := congrArg List.length h
  simpa using this

theorem shape_name {evs evs' : List Event}
    (h : evs.map eventShape = evs'.map eventShape) (i : Nat) :
    ((evs.getD i default).name = (evs'.getD i default).name ∧
     (evs.getD i default).kind = (evs'.getD i default).kind) := by
  have hlen : evs.length = evs'.length := shape_length h
  by_cases hi : i < evs.length
  · have h2 := congrArg (fun l => l[i]?) h
    simp only [List.getElem?_map] at h2
    rw [List.getElem?_eq_getElem hi, List.getElem?_eq_getElem (hlen ▸ hi)] at h2
    simp only [Option.map_some', Option.some.injEq, eventShape, Prod.mk.injEq] at h2
    rw [List.getD_eq_getElem evs default hi,
      List.getD_eq_getElem evs' default (hlen ▸ hi)]
    exact ⟨h2.2, h2.1⟩
  · rw [List.getD_eq_getElem?_getD, List.getD_eq_getElem?_getD,
      List.getElem?_eq_none (by omega), List.getElem?_eq_none (by omega)]
    exact ⟨rfl, rfl⟩

theorem markBetweenGo_getElem? (lo hi : Nat) :
    ∀ (l : List Sequence) (i0 k : Nat),
      (markBetweenGo lo hi l i0)[k]? =
        (l[k]?).map (fun s =>
          if lo < i0 + k ∧ i0 + k < hi then { s with open_ := false } else s) := by
  intro l
  induction l with
  | nil =>
    intro i0 k
    simp [markBetweenGo]
  | cons s rest ih =>
    intro i0 k
    cases k with
    | zero => simp [markBetweenGo]
    | succ k' =>
      simp only [markBetweenGo, List.getElem?_cons_succ, ih (i0 + 1) k']
      have : i0 + 1 + k' = i0 + (k' + 1) := by omega
      rw [this]

theorem markBetween_getD (lo hi : Nat) (l : List Sequence) (k : Nat)
    (hk : k < l.length) :
    (markBetween lo hi l).getD k default =
      (if lo < k ∧ k < hi then { l.getD k default with open_ := false }
       else l.getD k default) := by
  rw [List.getD_eq_getElem?_getD, markBetween, markBetweenGo_getElem?,
    List.getElem?_eq_getElem hk]
  simp only [Nat.zero_add, Option.map_some]
  rw [List.getD_eq_getElem l default hk]
  split <;> rfl

theorem markBetween_length (lo hi : Nat) (l : List Sequence) :
    (markBetween lo hi l).length = l.length := by
  have h1 : ∀ (l' : List Sequence) (i0 : Nat),
      (markBetweenGo lo hi l' i0).length = l'.length := by
    intro l'
    induction l' with
    | nil => intro i0; rfl
    | cons s rest ih => intro i0; simp [markBetweenGo, ih]
  exact h1 l 0

theorem markBetween_ei (lo hi : Nat) (l : List Sequence) (k : Nat) :
    ((markBetween lo hi l).getD k default).event_index =
      (l.getD k default).event_index := by
  by_cases hk : k < l.length
  · rw [markBetween_getD lo hi l k hk]
    split <;> rfl
  · rw [List.getD_eq_getElem?_getD, List.getD_eq_getElem?_getD,
      List.getElem?_eq_none (by rw [markBetween_length]; omega),
      List.getElem?_eq_none (by omega)]

theorem markBetween_mem_forward (lo hi : Nat) (l : List Sequence) (s' : Sequence)
    (h : s' ∈ markBetween lo hi l) :
    ∃ s ∈ l, s'.event_index = s.event_index ∧ s'.size = s.size := by
  obtain ⟨k, hk⟩ := List.mem_iff_getElem?.1 h
  rw [markBetween, markBetweenGo_getElem?] at hk
  cases hl : l[k]? with
  | none => rw [hl] at hk; simp at hk
  | some s =>
    rw [hl] at hk
    simp only [Option.map_some', Option.some.injEq] at hk
    refine ⟨s, List.mem_iff_getElem?.2 ⟨k, hl⟩, ?_⟩
    rw [← hk]
    split <;> exact ⟨rfl, rfl⟩

theorem markBetween_mem_back (lo hi : Nat) (l : List Sequence) (s : Sequence)
    (h : s ∈ l) :
    ∃ s' ∈ markBetween lo hi l, s'.event_index = s.event_index := by
  obtain ⟨k, hk⟩ := List.mem_iff_getElem?.1 h
  refine ⟨(markBetween lo hi l).getD k default, ?_, ?_⟩
  · have hklt : k < l.length := by
      have := List.getElem?_eq_some_iff.1 hk
      exact this.1
    rw [List.getD_eq_getElem _ default (by rw [markBetween_length]; exact hklt)]
    exact List.getElem_mem _
  · rw [markBetween_ei, List.getD_eq_getElem?_getD, hk]
    rfl

theorem markBetween_pairwise (lo hi : Nat) (l : List Sequence)
    (h : List.Pairwise (fun a b : Sequence => a.event_index ≠ b.event_index) l) :
    List.Pairwise (fun a b : Sequence => a.event_index ≠ b.event_index)
      (markBetween lo hi l) := by
  rw [List.pairwise_iff_getElem] at h ⊢
  intro i j hpi hpj hij
  have hpi' : i < l.length := by
    rw [markBetween_length] at hpi
    exact hpi
  have hpj' : j < l.length := by
    rw [markBetween_length] at hpj
    exact hpj
  rw [← List.getD_eq_getElem (markBetween lo hi l) default hpi,
    ← List.getD_eq_getElem (markBetween lo hi l) default hpj,
    markBetween_ei, markBetween_ei,
    List.getD_eq_getElem l default hpi', List.getD_eq_getElem l default hpj']
  exact h i j hpi' hpj' hij

theorem getD_mem {α : Type} [Inhabited α] (l : List α) (i : Nat)
    (h : i < l.length) : l.getD i default ∈ l := by
  rw [List.getD_eq_getElem l default h]
  exact List.getElem_mem h

theorem mem_set_of_ne {α : Type} [Inhabited α] {l : List α} {i : Nat} {a s : α}
    (h : s ∈ l) (hne : s ≠ l.getD i default) : s ∈ l.set i a := by
  obtain ⟨p, hp⟩ := List.mem_iff_getElem?.1 h
  have hplt : p < l.length := (List.getElem?_eq_some_iff.1 hp).1
  have hpi : p ≠ i := by
    intro hpe
    subst hpe
    apply hne
    rw [List.getD_eq_getElem l default hplt]
    exact ((List.getElem?_eq_some_iff.1 hp).2).symm
  apply List.mem_iff_getElem?.2 ⟨p, ?_⟩
  rw [List.getElem?_set, if_neg (fun h => hpi h.symm)]
  exact hp

theorem mem_eraseIdx_of_ne {α : Type} [Inhabited α] {l : List α} {i : Nat}
    {s : α} (h : s ∈ l) (hne : s ≠ l.getD i default) : s ∈ l.eraseIdx i := by
  obtain ⟨p, hp⟩ := List.mem_iff_getElem?.1 h
  have hplt : p < l.length := (List.getElem?_eq_some_iff.1 hp).1
  have hpi : p ≠ i := by
    intro hpe
    subst hpe
    apply hne
    rw [List.getD_eq_getElem l default hplt]
    exact ((List.getElem?_eq_some_iff.1 hp).2).symm
  rcases Nat.lt_or_ge p i with hpi' | hpi'
  · exact List.mem_iff_getElem?.2 ⟨p, by rw [List.getElem?_eraseIdx, if_pos hpi']; exact hp⟩
  · have hgt : i < p := by omega
    refine List.mem_iff_getElem?.2 ⟨p - 1, ?_⟩
    rw [List.getElem?_eraseIdx, if_neg (by omega), (by omega : p - 1 + 1 = p)]
    exact hp

theorem eraseIdx_ei_ne (l : List Sequence) (i : Nat) (hi : i < l.length)
    (hpw : List.Pairwise (fun a b : Sequence => a.event_index ≠ b.event_index) l) :
    ∀ s ∈ l.eraseIdx i, s.event_index ≠ (l.getD i default).event_index := by
  intro s hs
  obtain ⟨p, hp⟩ := List.mem_iff_getElem?.1 hs
  rw [List.getElem?_eraseIdx] at hp
  rw [List.pairwise_iff_getElem] at hpw
  rw [List.getD_eq_getElem l default hi]
  split at hp
  · have hplt : p < l.length := (List.getElem?_eq_some_iff.1 hp).1
    have := hpw p i hplt hi (by omega)
    rw [(List.getElem?_eq_some_iff.1 hp).2] at this
    exact this
  · have hplt : p + 1 < l.length := (List.getElem?_eq_some_iff.1 hp).1
    have hgt : i < p + 1 := by omega
    have := hpw i (p + 1) hi hplt hgt
    rw [(List.getElem?_eq_some_iff.1 hp).2] at this
    exact fun he => this he.symm

theorem pairwise_ei_set (l : List Sequence) (i : Nat) (a : Sequence)
    (ha : a.event_index = (l.getD i default).event_index)
    (hpw : List.Pairwise (fun a b : Sequence => a.event_index ≠ b.event_index) l) :
    List.Pairwise (fun a b : Sequence => a.event_index ≠ b.event_index)
      (l.set i a) := by
  rw [List.pairwise_iff_getElem] at hpw ⊢
  intro p q hp hq hpq
  have hp' : p < l.length := by simpa using hp
  have hq' : q < l.length := by simpa using hq
  have key : ∀ r : Nat, r < l.length →
      ((l.set i a).getD r default).event_index =
        (l.getD r default).event_index := by
    intro r hr
    by_cases h : i = r
    · subst h
      rw [List.getD_eq_getElem?_getD (l.set i a), List.getElem?_set,
        if_pos rfl, if_pos hr]
      exact ha
    · rw [List.getD_eq_getElem?_getD (l.set i a), List.getD_eq_getElem?_getD l,
        List.getElem?_set, if_neg h]
  rw [← List.getD_eq_getElem (l.set i a) default hp,
    ← List.getD_eq_getElem (l.set i a) default hq, key p hp', key q hq',
    List.getD_eq_getElem l default hp', List.getD_eq_getElem l default hq']
  exact hpw p q hp' hq' hpq

theorem addInMap_mem_cases :
    ∀ (m : List Edit) (at_ r : Nat) (ins : List Event) (before : Bool)
      (ed' : Edit), ed' ∈ addInMap at_ r ins before m →
      ed' ∈ m ∨
      (∃ r0 ins0, (at_, r0, ins0) ∈ m ∧
        ed' = (at_, r0 + r, if before then ins ++ ins0 else ins0 ++ ins)) ∨
      ed' = (at_, r, ins) := by
  intro m
  induction m with
  | nil =>
    intro at_ r ins before ed' h
    simp [addInMap] at h
    exact Or.inr (Or.inr h)
  | cons e rest ih =>
    intro at_ r ins before ed' h
    rw [addInMap] at h
    split at h
    · rcases List.mem_cons.1 h with h1 | h1
      · refine Or.inr (Or.inl ⟨e.2.1, e.2.2, ?_, h1⟩)
        have : e = (at_, e.2.1, e.2.2) := by
          ext
          · exact ‹e.1 = at_›
          · rfl
          · rfl
        rw [← this]
        exact List.mem_cons_self _ _
      · exact Or.inl (List.mem_cons_of_mem _ h1)
    · rcases List.mem_cons.1 h with h1 | h1
      · exact Or.inl (h1 ▸ List.mem_cons_self _ _)
      · rcases ih at_ r ins before ed' h1 with h2 | h2 | h2
        · exact Or.inl (List.mem_cons_of_mem _ h2)
        · obtain ⟨r0, ins0, hmem, hed⟩ := h2
          exact Or.inr (Or.inl ⟨r0, ins0, List.mem_cons_of_mem _ hmem, hed⟩)
        · exact Or.inr (Or.inr h2)

theorem addInMap_covers :
    ∀ (m : List Edit) (at_ r : Nat) (ins : List Event) (before : Bool) (i : Nat),
      (∃ ed ∈ m, covers ed i) →
      ∃ ed' ∈ addInMap at_ r ins before m, covers ed' i := by
  intro m
  induction m with
  | nil =>
    intro at_ r ins before i h
    simp at h
  | cons e rest ih =>
    intro at_ r ins before i h
    obtain ⟨ed, hed, hcov⟩ := h
    by_cases hcond : e.1 = at_
    · rw [addInMap, if_pos hcond]
      rcases List.mem_cons.1 hed with h1 | h1
      · subst h1
        refine ⟨(at_, ed.2.1 + r, if before then ins ++ ed.2.2 else ed.2.2 ++ ins),
          List.mem_cons_self _ _, ?_, ?_⟩
        · show at_ ≤ i
          rw [← hcond]
          exact hcov.1
        · show i < at_ + (ed.2.1 + r)
          have h2 := hcov.2
          omega
      · exact ⟨ed, List.mem_cons_of_mem _ h1, hcov⟩
    · rw [addInMap, if_neg hcond]
      rcases List.mem_cons.1 hed with h1 | h1
      · exact ⟨ed, h1 ▸ List.mem_cons_self _ _, hcov⟩
      · obtain ⟨ed', hed', hcov'⟩ := ih at_ r ins before i ⟨ed, h1, hcov⟩
        exact ⟨ed', List.mem_cons_of_mem _ hed', hcov'⟩

theorem addInMap_at_remove :
    ∀ (m : List Edit) (at_ r : Nat) (ins : List Event) (before : Bool),
      ∃ ed' ∈ addInMap at_ r ins before m, ed'.1 = at_ ∧ r ≤ ed'.2.1 := by
  intro m
  induction m with
  | nil =>
    intro at_ r ins before
    exact ⟨(at_, r, ins), List.mem_cons_self _ _, rfl, Nat.le_refl _⟩
  | cons e rest ih =>
    intro at_ r ins before
    by_cases hcond : e.1 = at_
    · rw [addInMap, if_pos hcond]
      refine ⟨(at_, e.2.1 + r, if before then ins ++ e.2.2 else e.2.2 ++ ins),
        List.mem_cons_self _ _, rfl, ?_⟩
      show r ≤ e.2.1 + r
      omega
    · rw [addInMap, if_neg hcond]
      obtain ⟨ed', hed', h1, h2⟩ := ih at_ r ins before
      exact ⟨ed', List.mem_cons_of_mem _ hed', h1, h2⟩

theorem addInMap_pairwise :
    ∀ (m : List Edit) (at_ r : Nat) (ins : List Event) (before : Bool),
      List.Pairwise (fun a b : Edit => a.1 ≠ b.1) m →
      List.Pairwise (fun a b : Edit => a.1 ≠ b.1)
        (addInMap at_ r ins before m) := by
  intro m
  induction m with
  | nil =>
    intro at_ r ins before _
    simp [addInMap]
  | cons e rest ih =>
    intro at_ r ins before hpw
    obtain ⟨hhead, htail⟩ := List.pairwise_cons.1 hpw
    rw [addInMap]
    split
    · refine List.pairwise_cons.2 ⟨?_, htail⟩
      intro ed hed
      have := hhead ed hed
      rw [← ‹e.1 = at_›]
      exact this
    · refine List.pairwise_cons.2 ⟨?_, ih at_ r ins before htail⟩
      intro ed hed
      rcases addInMap_mem_cases rest at_ r ins before ed hed with h1 | h1 | h1
      · exact hhead ed h1
      · obtain ⟨r0, ins0, hmem, hed'⟩ := h1
        rw [hed']
        exact ‹¬ e.1 = at_›
      · rw [h1]
        exact ‹¬ e.1 = at_›

theorem openingEvents_no_attn (take : Nat) (p q : Point) :
    ∀ e ∈ openingEvents take p q, e.name ≠ Name.attentionSequence := by
  intro e he
  simp only [openingEvents, List.mem_cons, List.not_mem_nil, or_false] at he
  rcases he with rfl | rfl | rfl | rfl <;> (show (if take = 1 then _ else _) ≠ _; split <;> decide)

theorem closingEvents_no_attn (take : Nat) (p q : Point) :
    ∀ e ∈ closingEvents take p q, e.name ≠ Name.attentionSequence := by
  intro e he
  simp only [closingEvents, List.mem_cons, List.not_mem_nil, or_false] at he
  rcases he with rfl | rfl | rfl | rfl <;> (show (if take = 1 then _ else _) ≠ _; split <;> decide)

theorem shiftEvent_name (jumps : List (Nat × Int)) (e : Event) :
    (shiftEvent jumps e).name = e.name := rfl

theorem attnWf_enter_next {events : List Event} (hwf : attnWf events) {i : Nat}
    (h : attnEnterAt events i) :
    i + 1 < events.length ∧
    (events.getD (i + 1) default).name = Name.attentionSequence ∧
    (events.getD (i + 1) default).kind = Kind.exit :=
  (hwf i h.1.1 h.1.2).1 h.2

theorem attnWf_exit_prev {events : List Event} (hwf : attnWf events) {i : Nat}
    (h : attnAt events i) (hk : (events.getD i default).kind = Kind.exit) :
    1 ≤ i ∧ attnEnterAt events (i - 1) := by
  obtain ⟨h1, h2, h3⟩ := (hwf i h.1 h.2).2 hk
  have hlt := h.1
  exact ⟨h1, ⟨⟨by omega, h2⟩, h3⟩⟩

theorem attn_enter_or_exit (events : List Event) (i : Nat) :
    (events.getD i default).kind = Kind.enter ∨
    (events.getD i default).kind = Kind.exit := by
  cases h : (events.getD i default).kind
  · exact Or.inl rfl
  · exact Or.inr rfl

theorem attnWf_no_adjacent_enters {events : List Event} (hwf : attnWf events)
    {i : Nat} (h : attnEnterAt events i) : ¬ attnEnterAt events (i + 1) := by
  intro h2
  have h3 := (attnWf_enter_next hwf h).2.2
  rw [h2.2] at h3
  cases h3

theorem gatherGo_lb (charBefore charAfter : List Nat → Nat → Option Char)
    (isWhite isPunct : Char → Bool) (bytes : List Nat) :
    ∀ (l : List Event) (start bal : Nat) (s : Sequence),
      s ∈ gatherGo charBefore charAfter isWhite isPunct bytes l start bal →
      start ≤ s.event_index := by
  intro l
  induction l with
  | nil =>
    intro start bal s hs
    simp [gatherGo] at hs
  | cons e rest ih =>
    intro start bal s hs
    rw [gatherGo] at hs
    by_cases h1 : e.kind = Kind.enter
    · rw [if_pos h1] at hs
      by_cases h2 : e.name = Name.attentionSequence
      · rw [if_pos h2] at hs
        rcases List.mem_cons.1 hs with h | h
        · rw [h]
          simp [mkSequence]
        · exact Nat.le_of_succ_le (ih (start + 1) (bal + 1) s h)
      · rw [if_neg h2] at hs
        exact Nat.le_of_succ_le (ih (start + 1) (bal + 1) s hs)
    · rw [if_neg h1] at hs
      exact Nat.le_of_succ_le (ih (start + 1) (bal - 1) s hs)

theorem gatherGo_sorted (charBefore charAfter : List Nat → Nat → Option Char)
    (isWhite isPunct : Char → Bool) (bytes : List Nat) :
    ∀ (l : List Event) (start bal : Nat),
      List.Pairwise (fun a b : Sequence => a.event_index < b.event_index)
        (gatherGo charBefore charAfter isWhite isPunct bytes l start bal) := by
  intro l
  induction l with
  | nil =>
    intro start bal
    simp [gatherGo]
  | cons e rest ih =>
    intro start bal
    rw [gatherGo]
    by_cases h1 : e.kind = Kind.enter
    · rw [if_pos h1]
      by_cases h2 : e.name = Name.attentionSequence
      · rw [if_pos h2]
        refine List.pairwise_cons.2 ⟨?_, ih (start + 1) (bal + 1)⟩
        intro s hs
        have := gatherGo_lb charBefore charAfter isWhite isPunct bytes rest
          (start + 1) (bal + 1) s hs
        show start < s.event_index
        omega
      · rw [if_neg h2]
        exact ih (start + 1) (bal + 1)
    · rw [if_neg h1]
      exact ih (start + 1) (bal - 1)

theorem gatherGo_sound (charBefore charAfter : List Nat → Nat → Option Char)
    (isWhite isPunct : Char → Bool) (bytes : List Nat) (events : List Event) :
    ∀ (l : List Event) (start bal : Nat),
      (∀ k, l[k]? = events[start + k]?) →
      ∀ s ∈ gatherGo charBefore charAfter isWhite isPunct bytes l start bal,
        attnEnterAt events s.event_index := by
  intro l
  induction l with
  | nil =>
    intro start bal _ s hs
    simp [gatherGo] at hs
  | cons e rest ih =>
    intro start bal hl s hs
    have hl0 : events[start]? = some e := by
      have := hl 0
      simpa using this.symm
    have hlr : ∀ k, rest[k]? = events[start + 1 + k]? := by
      intro k
      have := hl (k + 1)
      rw [(by omega : start + 1 + k = start + (k + 1))]
      simpa using this
    have hestart : events.getD start default = e := by
      rw [List.getD_eq_getElem?_getD, hl0]
      rfl
    rw [gatherGo] at hs
    by_cases h1 : e.kind = Kind.enter
    · rw [if_pos h1] at hs
      by_cases h2 : e.name = Name.attentionSequence
      · rw [if_pos h2] at hs
        rcases List.mem_cons.1 hs with h | h
        · have hei : s.event_index = start := by
            rw [h]
            simp [mkSequence]
          rw [hei]
          exact ⟨⟨(List.getElem?_eq_some_iff.1 hl0).1, hestart ▸ h2⟩, hestart ▸ h1⟩
        · exact ih (start + 1) (bal + 1) hlr s h
      · rw [if_neg h2] at hs
        exact ih (start + 1) (bal + 1) hlr s hs
    · rw [if_neg h1] at hs
      exact ih (start + 1) (bal - 1) hlr s hs

theorem gatherGo_complete (charBefore charAfter : List Nat → Nat → Option Char)
    (isWhite isPunct : Char → Bool) (bytes : List Nat) (events : List Event) :
    ∀ (l : List Event) (start bal : Nat),
      (∀ k, l[k]? = events[start + k]?) →
      ∀ i, start ≤ i → attnAt events i →
        (events.getD i default).kind = Kind.enter →
        ∃ s ∈ gatherGo charBefore charAfter isWhite isPunct bytes l start bal,
          s.event_index = i := by
  intro l
  induction l with
  | nil =>
    intro start bal hl i hsi hattn _
    exfalso
    have h0 := hl (i - start)
    rw [(by omega : start + (i - start) = i)] at h0
    rw [List.getElem?_eq_getElem hattn.1] at h0
    simp at h0
  | cons e rest ih =>
    intro start bal hl i hsi hattn hkind
    have hl0 : events[start]? = some e := by
      have := hl 0
      simpa using this.symm
    have hlr : ∀ k, rest[k]? = events[start + 1 + k]? := by
      intro k
      have := hl (k + 1)
      rw [(by omega : start + 1 + k = start + (k + 1))]
      simpa using this
    have hestart : events.getD start default = e := by
      rw [List.getD_eq_getElem?_getD, hl0]
      rfl
    rcases Nat.eq_or_lt_of_le hsi with rfl | hlt
    · rw [gatherGo, if_pos (hestart ▸ hkind), if_pos (hestart ▸ hattn.2)]
      exact ⟨_, List.mem_cons_self _ _, rfl⟩
    · rw [gatherGo]
      by_cases h1 : e.kind = Kind.enter
      · rw [if_pos h1]
        by_cases h2 : e.name = Name.attentionSequence
        · rw [if_pos h2]
          obtain ⟨s, hs, hei⟩ := ih (start + 1) (bal + 1) hlr i (by omega) hattn hkind
          exact ⟨s, List.mem_cons_of_mem _ hs, hei⟩
        · rw [if_neg h2]
          exact ih (start + 1) (bal + 1) hlr i (by omega) hattn hkind
      · rw [if_neg h1]
        exact ih (start + 1) (bal - 1) hlr i (by omega) hattn hkind

theorem mem_drop_getD (events : List Event) (start : Nat) (e : Event)
    (h : e ∈ events.drop start) :
    ∃ i, start ≤ i ∧ i < events.length ∧ events.getD i default = e := by
  obtain ⟨k, hk⟩ := List.mem_iff_getElem?.1 h
  rw [List.getElem?_drop] at hk
  refine ⟨start + k, by omega, (List.getElem?_eq_some_iff.1 hk).1, ?_⟩
  rw [List.getD_eq_getElem?_getD, hk]
  rfl

theorem mem_take_drop_getD (events : List Event) (a start : Nat) (e : Event)
    (h : e ∈ (events.take a).drop start) :
    ∃ i, start ≤ i ∧ i < a ∧ i < events.length ∧
      events.getD i default = e := by
  obtain ⟨k, hk⟩ := List.mem_iff_getElem?.1 h
  rw [List.getElem?_drop, List.getElem?_take] at hk
  split at hk
  · refine ⟨start + k, by omega, by omega, (List.getElem?_eq_some_iff.1 hk).1, ?_⟩
    rw [List.getD_eq_getElem?_getD, hk]
    rfl
  · simp at hk

theorem consumeGo_no_attn (events : List Event) (jumps : List (Nat × Int)) :
    ∀ (edits : List Edit) (start : Nat),
      (∀ ed ∈ edits, start ≤ ed.1) →
      List.Pairwise (fun a b : Edit => a.1 + a.2.1 ≤ b.1) edits →
      (∀ ed ∈ edits, ∀ e ∈ ed.2.2, e.name ≠ Name.attentionSequence) →
      (∀ i, start ≤ i → i < events.length →
        (events.getD i default).name = Name.attentionSequence →
        ∃ ed ∈ edits, covers ed i) →
      ∀ e ∈ consumeGo events jumps edits start,
        e.name ≠ Name.attentionSequence := by
  intro edits
  induction edits with
  | nil =>
    intro start _ _ _ hcov e he
    rw [consumeGo] at he
    obtain ⟨e0, he0, rfl⟩ := List.mem_map.1 he
    rw [shiftEvent_name]
    intro hname
    obtain ⟨i, hi1, hi2, hi3⟩ := mem_drop_getD events start e0 he0
    obtain ⟨ed, hed, _⟩ := hcov i hi1 hi2 (by rw [hi3]; exact hname)
    simp at hed
  | cons ed rest ih =>
    intro start hstart hsep hins hcov e he
    rw [consumeGo] at he
    obtain ⟨hsep1, hsep2⟩ := List.pairwise_cons.1 hsep
    rcases List.mem_append.1 he with h | h
    · rcases List.mem_append.1 h with h1 | h1
      · obtain ⟨e0, he0, rfl⟩ := List.mem_map.1 h1
        rw [shiftEvent_name]
        intro hname
        obtain ⟨i, hi1, hia, hi2, hi3⟩ := mem_take_drop_getD events ed.1 start e0 he0
        obtain ⟨ed', hed', hcv⟩ := hcov i hi1 hi2 (by rw [hi3]; exact hname)
        obtain ⟨hc1, hc2⟩ := hcv
        rcases List.mem_cons.1 hed' with h2 | h2
        · subst h2
          omega
        · have := hsep1 ed' h2
          omega
      · exact hins ed (List.mem_cons_self _ _) e h1
    · refine ih (ed.1 + ed.2.1) (fun ed' hed' => hsep1 ed' hed') hsep2
        (fun ed' hed' => hins ed' (List.mem_cons_of_mem _ hed')) ?_ e h
      intro i hi1 hi2 hname
      have hstart0 := hstart ed (List.mem_cons_self _ _)
      obtain ⟨ed', hed', hcv⟩ := hcov i (by omega) hi2 hname
      rcases List.mem_cons.1 hed' with h2 | h2
      · subst h2
        exact absurd hcv.2 (by omega)
      · exact ⟨ed', h2, hcv⟩

theorem markAsData_cons (evs : List Event) (s : Sequence)
    (rest : List Sequence) :
    markAsData evs (s :: rest) =
      markAsData (setName (setName evs s.event_index Name.data)
        (s.event_index + 1) Name.data) rest := rfl

theorem markAsData_length : ∀ (seqs : List Sequence) (evs : List Event),
    (markAsData evs seqs).length = evs.length := by
  intro seqs
  induction seqs with
  | nil =>
    intro evs
    rfl
  | cons s rest ih =>
    intro evs
    rw [markAsData_cons, ih, setName_length, setName_length]

theorem markAsData_attn : ∀ (seqs : List Sequence) (evs : List Event) (i : Nat),
    (∀ s ∈ seqs, s.event_index + 1 < evs.length) →
    ((markAsData evs seqs).getD i default).name = Name.attentionSequence →
    ((evs.getD i default).name = Name.attentionSequence ∧
      ∀ s ∈ seqs, i ≠ s.event_index ∧ i ≠ s.event_index + 1) := by
  intro seqs
  induction seqs with
  | nil =>
    intro evs i _ h
    exact ⟨h, by simp⟩
  | cons s rest ih =>
    intro evs i hlen h
    rw [markAsData_cons] at h
    have hlen' : ∀ s' ∈ rest, s'.event_index + 1 <
        (setName (setName evs s.event_index Name.data)
          (s.event_index + 1) Name.data).length := by
      intro s' hs'
      rw [setName_length, setName_length]
      exact hlen s' (List.mem_cons_of_mem _ hs')
    obtain ⟨h1, h2⟩ := ih _ i hlen' h
    by_cases hi : i < evs.length
    · have hname1 := setName_name (setName evs s.event_index Name.data)
        (s.event_index + 1) Name.data i (by rw [setName_length]; exact hi)
      rw [hname1] at h1
      by_cases hc1 : s.event_index + 1 = i
      · rw [if_pos hc1] at h1
        exact absurd h1 (by decide)
      · rw [if_neg hc1] at h1
        have hname2 := setName_name evs s.event_index Name.data i hi
        rw [hname2] at h1
        by_cases hc2 : s.event_index = i
        · rw [if_pos hc2] at h1
          exact absurd h1 (by decide)
        · rw [if_neg hc2] at h1
          refine ⟨h1, ?_⟩
          intro s' hs'
          rcases List.mem_cons.1 hs' with rfl | hs'
          · exact ⟨fun h => hc2 h.symm, fun h => hc1 h.symm⟩
          · exact h2 s' hs'
    · exfalso
      have hge : (setName (setName evs s.event_index Name.data)
          (s.event_index + 1) Name.data).length ≤ i := by
        rw [setName_length, setName_length]
        omega
      rw [List.getD_eq_getElem?_getD, List.getElem?_eq_none hge] at h1
      exact absurd h1 (by decide)

theorem mem_set_self {α : Type} (l : List α) (k : Nat) (a : α)
    (hk : k < l.length) : a ∈ l.set k a := by
  refine List.mem_iff_getElem?.2 ⟨k, ?_⟩
  rw [List.getElem?_set, if_pos rfl, if_pos hk]

theorem getD_eraseIdx_lt {α : Type} [Inhabited α] (l : List α) (i j : Nat)
    (h : j < i) : (l.eraseIdx i).getD j default = l.getD j default := by
  rw [List.getD_eq_getElem?_getD, List.getD_eq_getElem?_getD,
    List.getElem?_eraseIdx, if_pos h]

theorem getD_set_ne {α : Type} [Inhabited α] (l : List α) (i j : Nat) (a : α)
    (h : i ≠ j) : (l.set i a).getD j default = l.getD j default := by
  rw [List.getD_eq_getElem?_getD, List.getD_eq_getElem?_getD,
    List.getElem?_set, if_neg h]

theorem ei_unique (l : List Sequence) (k : Nat) (hk : k < l.length)
    (hpw : List.Pairwise (fun a b : Sequence => a.event_index ≠ b.event_index) l)
    (s : Sequence) (hs : s ∈ l)
    (he : s.event_index = (l.getD k default).event_index) :
    s = l.getD k default := by
  obtain ⟨p, hp⟩ := List.mem_iff_getElem?.1 hs
  have hplt : p < l.length := (List.getElem?_eq_some_iff.1 hp).1
  have hsp : l[p] = s := (List.getElem?_eq_some_iff.1 hp).2
  rw [List.pairwise_iff_getElem] at hpw
  rw [List.getD_eq_getElem l default hk] at he ⊢
  by_cases hpk : p = k
  · subst hpk
    exact hsp.symm
  · exfalso
    rcases Nat.lt_or_ge p k with h1 | h1
    · exact hpw p k hplt hk h1 (hsp ▸ he)
    · exact hpw k p hk hplt (by omega) (hsp ▸ he.symm)

theorem inv_markBetween (orig : List Event) (st : AttState) (lo hi : Nat)
    (hinv : InvState orig st) :
    InvState orig ⟨markBetween lo hi st.sequences, st.events, st.map⟩ := by
  obtain ⟨hshape, hcov, hseq, hed, hexc, hpwm, hpws⟩ := hinv
  refine ⟨hshape, ?_, ?_, hed, ?_, hpwm, markBetween_pairwise lo hi _ hpws⟩
  · intro i hattn
    rcases hcov i hattn with ⟨s, hs, hcase⟩ | hmap
    · obtain ⟨s', hs', he'⟩ := markBetween_mem_back lo hi st.sequences s hs
      exact Or.inl ⟨s', hs', by rw [he']; exact hcase⟩
    · exact Or.inr hmap
  · intro s hs
    obtain ⟨s0, hs0, he0, _⟩ := markBetween_mem_forward lo hi st.sequences s hs
    rw [he0]
    exact hseq s0 hs0
  · intro ed hedm hr s hs
    obtain ⟨s0, hs0, he0, _⟩ := markBetween_mem_forward lo hi st.sequences s hs
    rw [he0]
    exact hexc ed hedm hr s0 hs0

theorem inv_set_setPoint (orig : List Event) (seqs : List Sequence)
    (evs : List Event) (m : EditMap) (k : Nat) (hk : k < seqs.length)
    (a : Sequence) (ha : a.event_index = (seqs.getD k default).event_index)
    (j : Nat) (p : Point) (hinv : InvState orig ⟨seqs, evs, m⟩) :
    InvState orig ⟨seqs.set k a, setPoint evs j p, m⟩ := by
  obtain ⟨hshape, hcov, hseq, hed, hexc, hpwm, hpws⟩ := hinv
  refine ⟨?_, ?_, ?_, hed, ?_, hpwm, pairwise_ei_set seqs k a ha hpws⟩
  · rw [setPoint_shape]
    exact hshape
  · intro i hattn
    rcases hcov i hattn with ⟨s, hs, hcase⟩ | hmap
    · by_cases hse : s.event_index = (seqs.getD k default).event_index
      · refine Or.inl ⟨a, mem_set_self seqs k a hk, ?_⟩
        rw [ha, ← hse]
        exact hcase
      · refine Or.inl ⟨s, mem_set_of_ne hs ?_, hcase⟩
        intro heq
        exact hse (heq ▸ rfl)
    · exact Or.inr hmap
  · intro s hs
    rcases List.mem_or_eq_of_mem_set hs with h | h
    · exact hseq s h
    · rw [h, ha]
      exact hseq _ (getD_mem seqs k hk)
  · intro ed hedm hr s hs
    rcases List.mem_or_eq_of_mem_set hs with h | h
    · exact hexc ed hedm hr s h
    · rw [h, ha]
      exact hexc ed hedm hr _ (getD_mem seqs k hk)

theorem inv_erase_add (orig : List Event) (seqs : List Sequence)
    (evs : List Event) (m : EditMap) (k : Nat) (hk : k < seqs.length)
    (hwf : attnWf orig) (hinv : InvState orig ⟨seqs, evs, m⟩) :
    InvState orig ⟨seqs.eraseIdx k, evs,
      m.add (seqs.getD k default).event_index 2 []⟩ := by
  obtain ⟨hshape, hcov, hseq, hed, hexc, hpwm, hpws⟩ := hinv
  have hkek : attnEnterAt orig (seqs.getD k default).event_index :=
    hseq _ (getD_mem seqs k hk)
  refine ⟨hshape, ?_, ?_, ?_, ?_, addInMap_pairwise m.map _ 2 [] false hpwm, ?_⟩
  · intro i hattn
    rcases hcov i hattn with ⟨s, hs, hcase⟩ | hmap
    · by_cases hse : s.event_index = (seqs.getD k default).event_index
      · obtain ⟨ed', hed', h1, h2⟩ :=
          addInMap_at_remove m.map (seqs.getD k default).event_index 2 [] false
        refine Or.inr ⟨ed', hed', ?_, ?_⟩
        · rw [h1, ← hse]
          rcases hcase with h | h <;> omega
        · rw [h1, ← hse]
          rcases hcase with h | h <;> omega
      · refine Or.inl ⟨s, mem_eraseIdx_of_ne hs ?_, hcase⟩
        intro heq
        exact hse (heq ▸ rfl)
    · exact Or.inr (addInMap_covers m.map _ 2 [] false i hmap)
  · intro s hs
    exact hseq s ((List.eraseIdx_sublist seqs k).mem hs)
  · intro ed hedm
    rcases addInMap_mem_cases m.map _ 2 [] false ed hedm with h | h | h
    · exact hed ed h
    · obtain ⟨r0, ins0, hmem, hrw⟩ := h
      have hr0 : r0 = 0 := by
        by_contra hr0
        have := hexc (_, r0, ins0) hmem (by simpa using hr0) _ (getD_mem seqs k hk)
        exact this rfl
      subst hr0
      subst hrw
      refine ⟨?_, by simp, fun _ => hkek, Or.inl hkek⟩
      intro e he
      simp at he
      exact (hed _ hmem).1 e he
    · subst h
      exact ⟨by simp, Or.inr rfl, fun _ => hkek, Or.inl hkek⟩
  · intro ed hedm hr s hs
    rcases addInMap_mem_cases m.map _ 2 [] false ed hedm with h | h | h
    · exact hexc ed h hr s ((List.eraseIdx_sublist seqs k).mem hs)
    · obtain ⟨r0, ins0, hmem, hrw⟩ := h
      subst hrw
      exact eraseIdx_ei_ne seqs k hk hpws s hs
    · subst h
      exact eraseIdx_ei_ne seqs k hk hpws s hs
  · exact List.Pairwise.sublist (List.eraseIdx_sublist seqs k) hpws

theorem inv_add_inserts (orig : List Event) (seqs : List Sequence)
    (evs : List Event) (m : EditMap) (at_ : Nat) (ins : List Event)
    (before : Bool) (hins : ∀ e ∈ ins, e.name ≠ Name.attentionSequence)
    (hpos : attnEnterAt orig at_ ∨ ∃ j, at_ = j + 2 ∧ attnEnterAt orig j)
    (hinv : InvState orig ⟨seqs, evs, m⟩) :
    InvState orig ⟨seqs, evs, add_impl m at_ 0 ins before⟩ := by
  obtain ⟨hshape, hcov, hseq, hed, hexc, hpwm, hpws⟩ := hinv
  refine ⟨hshape, ?_, hseq, ?_, ?_,
    addInMap_pairwise m.map at_ 0 ins before hpwm, hpws⟩
  · intro i hattn
    rcases hcov i hattn with h | hmap
    · exact Or.inl h
    · exact Or.inr (addInMap_covers m.map at_ 0 ins before i hmap)
  · intro ed hedm
    rcases addInMap_mem_cases m.map at_ 0 ins before ed hedm with h | h | h
    · exact hed ed h
    · obtain ⟨r0, ins0, hmem, hrw⟩ := h
      obtain ⟨hi0, hr0, hr2, _⟩ := hed _ hmem
      subst hrw
      refine ⟨?_, by simpa using hr0, by simpa using hr2, hpos⟩
      intro e he
      split at he
      · rcases List.mem_append.1 he with h1 | h1
        · exact hins e h1
        · exact hi0 e h1
      · rcases List.mem_append.1 he with h1 | h1
        · exact hi0 e h1
        · exact hins e h1
    · subst h
      refine ⟨hins, Or.inl rfl, ?_, hpos⟩
      intro h2
      simp at h2
  · intro ed hedm hr s hs
    rcases addInMap_mem_cases m.map at_ 0 ins before ed hedm with h | h | h
    · exact hexc ed h hr s hs
    · obtain ⟨r0, ins0, hmem, hrw⟩ := h
      subst hrw
      have : r0 ≠ 0 := by simpa using hr
      exact hexc _ hmem (by simpa using this) s hs
    · subst h
      exact absurd (rfl : (0 : Nat) = 0) hr

theorem applyMatch_inv (orig : List Event) (st : AttState)
    (openIdx closeIdx : Nat) (hwf : attnWf orig) (hinv : InvState orig st)
    (hc : closeIdx < st.sequences.length) (ho : openIdx < closeIdx) :
    InvState orig (applyMatch st openIdx closeIdx).1 := by
  have hco : openIdx < st.sequences.length := by omega
  have hmblen : (markBetween openIdx closeIdx st.sequences).length =
      st.sequences.length := markBetween_length _ _ _
  have hAenC : attnEnterAt orig (st.sequences.getD closeIdx default).event_index :=
    hinv.2.2.1 _ (getD_mem _ closeIdx hc)
  have hAenO : attnEnterAt orig (st.sequences.getD openIdx default).event_index :=
    hinv.2.2.1 _ (getD_mem _ openIdx hco)
  have hinv1 : InvState orig
      ⟨markBetween openIdx closeIdx st.sequences, st.events, st.map⟩ :=
    inv_markBetween orig st openIdx closeIdx hinv
  have heic : ((markBetween openIdx closeIdx st.sequences).getD closeIdx
        default).event_index =
      (st.sequences.getD closeIdx default).event_index :=
    markBetween_ei _ _ _ _
  have heio : ((markBetween openIdx closeIdx st.sequences).getD openIdx
        default).event_index =
      (st.sequences.getD openIdx default).event_index :=
    markBetween_ei _ _ _ _
  have herase : InvState orig
      ⟨(markBetween openIdx closeIdx st.sequences).eraseIdx closeIdx,
        st.events,
        add_impl st.map (st.sequences.getD closeIdx default).event_index
          2 [] false⟩ := by
    have h := inv_erase_add orig (markBetween openIdx closeIdx st.sequences)
      st.events st.map closeIdx (by omega) hwf hinv1
    rw [heic] at h
    exact h
  have heraselen : openIdx <
      ((markBetween openIdx closeIdx st.sequences).eraseIdx closeIdx).length := by
    rw [List.length_eraseIdx, if_pos (by omega)]
    omega
  have herase_getD :
      (((markBetween openIdx closeIdx st.sequences).eraseIdx closeIdx).getD
        openIdx default).event_index =
      (st.sequences.getD openIdx default).event_index := by
    rw [getD_eraseIdx_lt _ closeIdx openIdx ho, heio]
  unfold applyMatch
  simp only [EditMap.add, EditMap.add_before]
  generalize (if (st.sequences.getD openIdx default).size > 1 &&
      (st.sequences.getD closeIdx default).size > 1 then (2 : Nat) else 1) = take
  have hset : InvState orig
      ⟨(markBetween openIdx closeIdx st.sequences).set closeIdx
          { marker := (st.sequences.getD closeIdx default).marker,
              balance := (st.sequences.getD closeIdx default).balance,
              event_index := (st.sequences.getD closeIdx default).event_index,
              start_point :=
                { line := (st.sequences.getD closeIdx default).start_point.line,
                  column := (st.sequences.getD closeIdx default).start_point.column + take,
                  index := (st.sequences.getD closeIdx default).start_point.index + take,
                  vs := (st.sequences.getD closeIdx default).start_point.vs },
              end_point := (st.sequences.getD closeIdx default).end_point,
              size := (st.sequences.getD closeIdx default).size - take,
              open_ := (st.sequences.getD closeIdx default).open_,
              close := (st.sequences.getD closeIdx default).close },
        setPoint st.events (st.sequences.getD closeIdx default).event_index
          { line := (st.sequences.getD closeIdx default).start_point.line,
              column := (st.sequences.getD closeIdx default).start_point.column + take,
              index := (st.sequences.getD closeIdx default).start_point.index + take,
              vs := (st.sequences.getD closeIdx default).start_point.vs },
        st.map⟩ := by
    refine inv_set_setPoint orig (markBetween openIdx closeIdx st.sequences)
      st.events st.map closeIdx (by omega) _ ?_ _ _ hinv1
    rw [heic]
  have hsetlen : openIdx <
      ((markBetween openIdx closeIdx st.sequences).set closeIdx
        { marker := (st.sequences.getD closeIdx default).marker,
              balance := (st.sequences.getD closeIdx default).balance,
              event_index := (st.sequences.getD closeIdx default).event_index,
              start_point :=
                { line := (st.sequences.getD closeIdx default).start_point.line,
                  column := (st.sequences.getD closeIdx default).start_point.column + take,
                  index := (st.sequences.getD closeIdx default).start_point.index + take,
                  vs := (st.sequences.getD closeIdx default).start_point.vs },
              end_point := (st.sequences.getD closeIdx default).end_point,
              size := (st.sequences.getD closeIdx default).size - take,
              open_ := (st.sequences.getD closeIdx default).open_,
              close := (st.sequences.getD closeIdx default).close }).length := by
    rw [List.length_set]
    omega
  have hset_getD :
      (((markBetween openIdx closeIdx st.sequences).set closeIdx
        { marker := (st.sequences.getD closeIdx default).marker,
              balance := (st.sequences.getD closeIdx default).balance,
              event_index := (st.sequences.getD closeIdx default).event_index,
              start_point :=
                { line := (st.sequences.getD closeIdx default).start_point.line,
                  column := (st.sequences.getD closeIdx default).start_point.column + take,
                  index := (st.sequences.getD closeIdx default).start_point.index + take,
                  vs := (st.sequences.getD closeIdx default).start_point.vs },
              end_point := (st.sequences.getD closeIdx default).end_point,
              size := (st.sequences.getD closeIdx default).size - take,
              open_ := (st.sequences.getD closeIdx default).open_,
              close := (st.sequences.getD closeIdx default).close }).getD openIdx default).event_index =
      (st.sequences.getD openIdx default).event_index := by
    rw [getD_set_ne _ closeIdx openIdx _ (by omega), heio]
  split
  · -- opener fully used: it is erased and a removal edit recorded
    split
    · -- closer fully used too
      dsimp only
      refine inv_add_inserts orig _ _ _ _ _ _ (closingEvents_no_attn _ _ _)
        (Or.inl hAenC) ?_
      refine inv_add_inserts orig _ _ _ _ _ _ (openingEvents_no_attn _ _ _)
        (Or.inr ⟨_, rfl, hAenO⟩) ?_
      rw [show (st.sequences.getD openIdx default).event_index =
        (((markBetween openIdx closeIdx st.sequences).eraseIdx closeIdx).getD
          openIdx default).event_index from herase_getD.symm]
      exact inv_erase_add orig _ st.events _ openIdx heraselen hwf herase
    · -- closer keeps residual markers
      dsimp only
      refine inv_add_inserts orig _ _ _ _ _ _ (closingEvents_no_attn _ _ _)
        (Or.inl hAenC) ?_
      refine inv_add_inserts orig _ _ _ _ _ _ (openingEvents_no_attn _ _ _)
        (Or.inr ⟨_, rfl, hAenO⟩) ?_
      rw [show (st.sequences.getD openIdx default).event_index =
        (((markBetween openIdx closeIdx st.sequences).set closeIdx
          { marker := (st.sequences.getD closeIdx default).marker,
              balance := (st.sequences.getD closeIdx default).balance,
              event_index := (st.sequences.getD closeIdx default).event_index,
              start_point :=
                { line := (st.sequences.getD closeIdx default).start_point.line,
                  column := (st.sequences.getD closeIdx default).start_point.column + take,
                  index := (st.sequences.getD closeIdx default).start_point.index + take,
                  vs := (st.sequences.getD closeIdx default).start_point.vs },
              end_point := (st.sequences.getD closeIdx default).end_point,
              size := (st.sequences.getD closeIdx default).size - take,
              open_ := (st.sequences.getD closeIdx default).open_,
              close := (st.sequences.getD closeIdx default).close }).getD openIdx default).event_index from hset_getD.symm]
      exact inv_erase_add orig _ _ _ openIdx hsetlen hwf hset
  · -- opener keeps residual markers: set it and shift its exit point
    split
    · -- closer fully used
      dsimp only
      refine inv_add_inserts orig _ _ _ _ _ _ (closingEvents_no_attn _ _ _)
        (Or.inl hAenC) ?_
      refine inv_add_inserts orig _ _ _ _ _ _ (openingEvents_no_attn _ _ _)
        (Or.inr ⟨_, rfl, hAenO⟩) ?_
      refine inv_set_setPoint orig _ st.events _ openIdx heraselen _ ?_ _ _ herase
      rw [herase_getD]
    · -- closer keeps residual markers too
      dsimp only
      refine inv_add_inserts orig _ _ _ _ _ _ (closingEvents_no_attn _ _ _)
        (Or.inl hAenC) ?_
      refine inv_add_inserts orig _ _ _ _ _ _ (openingEvents_no_attn _ _ _)
        (Or.inr ⟨_, rfl, hAenO⟩) ?_
      refine inv_set_setPoint orig _ _ _ openIdx hsetlen _ ?_ _ _ hset
      rw [hset_getD]

theorem pairStep_inv (orig : List Event) (st : AttState) (closeIdx : Nat)
    (hwf : attnWf orig) (hinv : InvState orig st)
    (hc : closeIdx < st.sequences.length) :
    InvState orig (pairStep st closeIdx).1 := by
  unfold pairStep
  cases hfo : findOpen st.sequences closeIdx with
  | none =>
    simp only [hfo]
    split
    · exact hinv
    · exact hinv
  | some openIdx =>
    simp only [hfo]
    split
    · have ho : openIdx < closeIdx :=
        ((findOpenGo_spec st.sequences closeIdx closeIdx openIdx).1 hfo).1
      exact applyMatch_inv orig st openIdx closeIdx hwf hinv hc ho
    · exact hinv

theorem pairLoop_inv (orig : List Event) (hwf : attnWf orig) :
    ∀ (fuel : Nat) (st : AttState) (closeIdx : Nat), InvState orig st →
      InvState orig (pairLoop fuel st closeIdx) := by
  intro fuel
  induction fuel with
  | zero =>
    intro st closeIdx h
    exact h
  | succ f ih =>
    intro st closeIdx h
    rw [pairLoop]
    split
    · exact ih _ _ (pairStep_inv orig st closeIdx hwf h ‹_›)
    · exact h

theorem initial_inv (charBefore charAfter : List Nat → Nat → Option Char)
    (isWhite isPunct : Char → Bool) (bytes : List Nat) (events : List Event)
    (hwf : attnWf events) :
    InvState events
      ⟨gatherSequences charBefore charAfter isWhite isPunct bytes events,
        events, EditMap.new⟩ := by
  have hl : ∀ k : Nat, events[k]? = events[0 + k]? := by
    intro k
    rw [Nat.zero_add]
  refine ⟨rfl, ?_, ?_, ?_, ?_, ?_, ?_⟩
  · intro i hattn
    rcases attn_enter_or_exit events i with hk | hk
    · obtain ⟨s, hs, hei⟩ := gatherGo_complete charBefore charAfter isWhite
        isPunct bytes events events 0 0 hl i (Nat.zero_le i) hattn hk
      exact Or.inl ⟨s, hs, Or.inl hei.symm⟩
    · obtain ⟨h1, hen⟩ := attnWf_exit_prev hwf hattn hk
      obtain ⟨s, hs, hei⟩ := gatherGo_complete charBefore charAfter isWhite
        isPunct bytes events events 0 0 hl (i - 1) (Nat.zero_le _) hen.1 hen.2
      refine Or.inl ⟨s, hs, Or.inr ?_⟩
      omega
  · intro s hs
    exact gatherGo_sound charBefore charAfter isWhite isPunct bytes events
      events 0 0 hl s hs
  · intro ed hedm
    simp [EditMap.new] at hedm
  · intro ed hedm
    simp [EditMap.new] at hedm
  · simp [EditMap.new]
  · exact (gatherGo_sorted charBefore charAfter isWhite isPunct bytes events
      0 0).imp (fun h => by omega)

/-- C6: after the attention resolver has run (its edit map consumed), no
event named `AttentionSequence` remains: every pair was either removed
because its markers were fully taken by pairing, or renamed to `Data` by the
cleanup pass. -/
theorem claim_C6 (charBefore charAfter : List Nat → Nat → Option Char)
    (isWhite isPunct : Char → Bool) (bytes : List Nat) (events : List Event)
    (hwf : attnWf events) :
    ∀ e ∈ attention_resolve charBefore charAfter isWhite isPunct bytes events,
      e.name ≠ Name.attentionSequence := by
  intro e he
  unfold attention_resolve at he
  simp only [EditMap.consume] at he
  obtain ⟨hshape, hcov, hseq, hed, hexc, hpwm, hpws⟩ :=
    pairLoop_inv events hwf
      ((sumSizes (gatherSequences charBefore charAfter isWhite isPunct bytes
        events) + 1) *
        ((gatherSequences charBefore charAfter isWhite isPunct bytes
          events).length + 2))
      ⟨gatherSequences charBefore charAfter isWhite isPunct bytes events,
        events, EditMap.new⟩ 0
      (initial_inv charBefore charAfter isWhite isPunct bytes events hwf)
  set st := pairLoop
    ((sumSizes (gatherSequences charBefore charAfter isWhite isPunct bytes
      events) + 1) *
      ((gatherSequences charBefore charAfter isWhite isPunct bytes
        events).length + 2))
    ⟨gatherSequences charBefore charAfter isWhite isPunct bytes events,
      events, EditMap.new⟩ 0 with hst
  have hstlen : st.events.length = events.length := shape_length hshape
  have hseqlen : ∀ s ∈ st.sequences, s.event_index + 1 < st.events.length := by
    intro s hs
    have h := attnWf_enter_next hwf (hseq s hs)
    omega
  have hperm := sortEdits_perm st.map.map
  have hsortmem : ∀ ed ∈ sortEdits st.map.map, ed ∈ st.map.map :=
    fun ed hed => hperm.subset hed
  have hstrict : List.Pairwise (fun a b : Edit => a.1 < b.1)
      (sortEdits st.map.map) := by
    refine ((sortEdits_sorted st.map.map).and ?_).imp
      (fun h => lt_of_le_of_ne h.1 h.2)
    exact (hperm.pairwise_iff (fun h => h.symm)).2 hpwm
  have hsep : List.Pairwise (fun a b : Edit => a.1 + a.2.1 ≤ b.1)
      (sortEdits st.map.map) := by
    refine List.Pairwise.imp_of_mem ?_ hstrict
    intro a b ha hb hlt
    obtain ⟨_, hr02a, hr2a, _⟩ := hed a (hsortmem a ha)
    rcases hr02a with h0 | h2
    · omega
    · by_contra hcon
      have hb1 : b.1 = a.1 + 1 := by omega
      have hAen := hr2a h2
      have hexit := (attnWf_enter_next hwf hAen).2.2
      obtain ⟨_, _, _, hBpos⟩ := hed b (hsortmem b hb)
      rcases hBpos with hben | ⟨j, hj, hjen⟩
      · rw [hb1] at hben
        exact absurd (hben.2.symm.trans hexit) (by decide)
      · have hja : j + 1 = a.1 := by omega
        have hexit2 := (attnWf_enter_next hwf hjen).2.2
        rw [hja] at hexit2
        exact absurd (hAen.2.symm.trans hexit2) (by decide)
  refine consumeGo_no_attn (markAsData st.events st.sequences) _
    (sortEdits st.map.map) 0 (fun ed _ => Nat.zero_le _) hsep
    (fun ed hed' e' he' => (hed ed (hsortmem ed hed')).1 e' he') ?_ e he
  intro i _ hilen hname
  obtain ⟨h1, h2⟩ := markAsData_attn st.sequences st.events i hseqlen hname
  have hattn : attnAt events i := by
    constructor
    · rw [markAsData_length] at hilen
      omega
    · rw [← (shape_name hshape i).1]
      exact h1
  rcases hcov i hattn with ⟨s, hs, hcase⟩ | ⟨ed, hedm, hcv⟩
  · exfalso
    obtain ⟨hne1, hne2⟩ := h2 s hs
    rcases hcase with h | h
    · exact hne1 h
    · exact hne2 h
  · exact ⟨ed, hperm.mem_iff.2 hedm, hcv⟩

/-- Witness for C6 on the `*a*` fixture event log. -/
theorem claim_C6_witness :
    attnWf attnEvents ∧
    (attention_resolve cb0 ca0 ws0 pu0 attnBytes attnEvents).all
      (fun e => e.name != Name.attentionSequence) = true := by
  refine ⟨by decide, ?_⟩
  rw [List.all_eq_true]
  intro x hx
  have h := claim_C6 cb0 ca0 ws0 pu0 attnBytes attnEvents (by decide) x hx
  simpa using h

end Markdown
